import Mathlib

/-!
# K-Hive backend: shallow embedding of the cache / denormalized-index layer

This file embeds, in Lean, the data-access layer of the K-Hive forum
backend (`src/models/Post.js`, `src/models/Comment.js`, `src/models/User.js`,
`src/models/Vote.js`, `src/models/Feedback.js`, `src/config/prefixTree.js`,
`src/services/prefixSearchService.js`, `src/config/rediscon.js`) and proves
properties of the embedded operations.

Modelling conventions:
* MongoDB collections and the Redis key-value cache are modelled as
  association lists `List (String × α)` keyed by the document id
  (MongoDB `_id` equals the id field for every document the code inserts).
* `updateOne {id} {$set/...}` is modelled by mapping the update over the
  matching entry; `modifiedCount > 0` is modelled as "the matched document
  exists and the updated document differs from the old one", matching
  MongoDB's behaviour of not counting no-op writes.
* Redis lists (the feed cache) are modelled as `List String` per key with
  LPUSH / LTRIM / LREM / DEL semantics.
* Each operation is a pure function from a state to (result, new state);
  `async` fire-and-forget calls (promises the code does not `await`) are
  modelled with an explicit success flag where a claim depends on their
  failure.
* `new Date()` timestamps are modelled as a `Nat` parameter `now`.
-/

set_option linter.unusedVariables false

namespace KHive

/-! ## Association-list stores (MongoDB collections, Redis hash caches) -/

/-- Association-list map: the value stored at a key. -/
def Kv.get (l : List (String × α)) (k : String) : Option α :=
  match l with
  | [] => none
  | (k', v) :: rest => if k' = k then some v else Kv.get rest k

/-- Set a key (Redis SET: overwrite if present, append otherwise). -/
def Kv.set (l : List (String × α)) (k : String) (v : α) : List (String × α) :=
  match l with
  | [] => [(k, v)]
  | (k', v') :: rest =>
      if k' = k then (k, v) :: rest else (k', v') :: Kv.set rest k v

/-- Delete a key (Redis DEL / `cacheDel`). -/
def Kv.del (l : List (String × α)) (k : String) : List (String × α) :=
  match l with
  | [] => []
  | (k', v') :: rest =>
      if k' = k then Kv.del rest k else (k', v') :: Kv.del rest k

/-- MongoDB `updateOne {key}`: apply `f` to the matched document, if any. -/
def Kv.update (l : List (String × α)) (k : String) (f : α → α) :
    List (String × α) :=
  match l with
  | [] => []
  | (k', v') :: rest =>
      if k' = k then (k', f v') :: Kv.update rest k f
      else (k', v') :: Kv.update rest k f

/-- MongoDB `insertOne` with `_id = k`: fails on duplicate key. -/
def Kv.insert (l : List (String × α)) (k : String) (v : α) :
    Option (List (String × α)) :=
  match Kv.get l k with
  | some _ => none
  | none => some (l ++ [(k, v)])

/-- MongoDB `deleteOne {key}` (documents are keyed by `_id`, so at most
one matches). -/
def Kv.delete (l : List (String × α)) (k : String) : List (String × α) :=
  Kv.del l k

/-! ## Document types (`constructor`s of the model classes) -/

/-- A post document, with the fields written by `Post.create`
(`src/models/Post.js`). -/
structure PostDoc where
  postId : String
  userId : String
  title : String
  content : String
  tags : List String
  upvotes : Int
  downvotes : Int
  commentIds : List String
  createdAt : Nat
  updatedAt : Nat
  isPinned : Bool
  isLocked : Bool
  viewCount : Int
  media : List String
  deriving DecidableEq, Repr

/-- A user document, with the fields written by `User.create`
(`src/models/User.js`). -/
structure UserDoc where
  userId : String
  name : String
  gmailId : String
  joinDate : Nat
  avatarLink : Option String
  postIds : List String
  commentIds : List String
  role : String
  deriving DecidableEq, Repr

/-- A comment document, with the fields written by `Comment.create`
(`src/models/Comment.js`). -/
structure CommentDoc where
  commentId : String
  postId : String
  userId : String
  content : String
  parentCommentId : Option String
  upvotes : Int
  downvotes : Int
  createdAt : Nat
  updatedAt : Nat
  isEdited : Bool
  isDeleted : Bool
  deriving DecidableEq, Repr

/-- A vote document, with the fields written by `Vote.handleUpvote` /
`Vote.handleDownvote` (`src/models/Vote.js`). -/
structure VoteDoc where
  voteId : String
  postId : String
  userId : String
  vote : Int
  createdAt : Nat
  updatedAt : Nat
  deriving DecidableEq, Repr

/-- A feedback document (`src/models/Feedback.js`). -/
structure FeedbackDoc where
  feedbackId : String
  userId : String
  content : String
  createdAt : Nat
  deriving DecidableEq, Repr

/-! ## String helpers mirroring the JavaScript string methods

JS strings are indexed by UTF-16 code units; the model indexes by `Char`.
`Char.toLower` covers the ASCII range (JS `toLowerCase` is Unicode-aware;
the divergence is absorbed by the accent table below for the common
Latin-1 letters). -/

/-- JS `String.prototype.toLowerCase`, char-wise. -/
def strToLower (s : String) : String := ⟨s.data.map Char.toLower⟩

/-- JS `String.prototype.trim`: strip leading and trailing whitespace. -/
def strTrim (s : String) : String :=
  ⟨((s.data.dropWhile Char.isWhitespace).reverse.dropWhile Char.isWhitespace).reverse⟩

/-- JS `s.substring(0, n)`, char-wise. -/
def strTake (s : String) (n : Nat) : String := ⟨s.data.take n⟩

namespace PrefixTree

/-! ## `config/prefixTree.js`

The Redis store backing a `PrefixTree` instance is modelled as an
association list from the (lowercased) word-prefix to the sorted-set
members under `getKey(p) = prefixy:<namespace>:<p.toLowerCase()>`; the
constant namespace header is dropped since prepending it is injective.
A sorted-set member is the `completionData` JSON value (text, metadata,
timestamp — the embedded `score: 1` field is constant and omitted) paired
with its ZSET score. The metadata object is a type parameter `μ`. -/

/-- `this.MAX_PREFIX_LENGTH = 10`. -/
def MAX_PREFIX_LENGTH : Nat := 10

/-- `this.STOPWORDS` (`config/prefixTree.js` constructor). -/
def STOPWORDS : List String :=
  ["the", "is", "a", "an", "and", "or", "but", "in", "on", "at", "to",
   "for", "of", "with", "by", "from", "as", "be", "are", "was", "were",
   "been", "have", "has", "had", "do", "does", "did", "will", "would",
   "should", "could", "can", "may", "might", "must", "shall", "this",
   "that", "these", "those", "i", "you", "he", "she", "it", "we", "they",
   "my", "your", "his", "her", "its", "our", "their"]

/-- JS `\w` character class: `[A-Za-z0-9_]`. -/
def jsIsWordChar (c : Char) : Bool := c.isAlpha || c.isDigit || c = '_'

/-- NFD normalization followed by removal of combining marks
(`.normalize('NFD').replace(/[̀-ͯ]/g, '')`), modelled as a
base-letter table for the common Latin-1 accented letters (identity
elsewhere).  The table also covers the uppercase forms because the model's
`Char.toLower` is ASCII-only while JS `toLowerCase` is Unicode-aware. -/
def stripAccent (c : Char) : Char :=
  match c with
  | 'à' | 'á' | 'â' | 'ã' | 'ä' | 'å' | 'À' | 'Á' | 'Â' | 'Ã' | 'Ä' | 'Å' => 'a'
  | 'è' | 'é' | 'ê' | 'ë' | 'È' | 'É' | 'Ê' | 'Ë' => 'e'
  | 'ì' | 'í' | 'î' | 'ï' | 'Ì' | 'Í' | 'Î' | 'Ï' => 'i'
  | 'ò' | 'ó' | 'ô' | 'õ' | 'ö' | 'Ò' | 'Ó' | 'Ô' | 'Õ' | 'Ö' => 'o'
  | 'ù' | 'ú' | 'û' | 'ü' | 'Ù' | 'Ú' | 'Û' | 'Ü' => 'u'
  | 'ç' | 'Ç' => 'c'
  | 'ñ' | 'Ñ' => 'n'
  | 'ý' | 'ÿ' | 'Ý' => 'y'
  | _ => c

/-- The character pipeline of `tokenize` before splitting: lowercase,
strip accents, then `.replace(/[^\w\s]/g, ' ')`. -/
def normalizeChar (c : Char) : Char :=
  let c' := stripAccent c.toLower
  if jsIsWordChar c' || c'.isWhitespace then c' else ' '

/-- Split into maximal runs of non-whitespace characters (JS
`.split(/\s+/)`; JS yields a leading empty string when the input starts
with whitespace, but empty strings are removed by the `length > 2` filter
either way). -/
def splitWs : List Char → List Char → List (List Char)
  | [], acc => if acc.isEmpty then [] else [acc.reverse]
  | c :: cs, acc =>
      if c.isWhitespace then
        if acc.isEmpty then splitWs cs [] else acc.reverse :: splitWs cs []
      else splitWs cs (c :: acc)

/-- `tokenize(text)` (`config/prefixTree.js`): lowercase, strip accents,
replace special characters with spaces, split on whitespace, keep words of
length ≥ 3 that are not stopwords. -/
def tokenize (text : String) : List String :=
  ((splitWs (text.data.map normalizeChar) []).map (fun l => (⟨l⟩ : String))).filter
    (fun w => w.length > 2 && !STOPWORDS.contains w)

/-- A sorted-set member: the `completionData` JSON of `add`. -/
structure Completion (μ : Type) where
  text : String
  metadata : μ
  timestamp : Nat
  deriving DecidableEq, Repr

/-- The Redis store of one `PrefixTree` namespace: prefix ↦ zset members
with their scores. -/
abbrev Tree (μ : Type) := List (String × List (Completion μ × Int))

variable {μ : Type} [DecidableEq μ]

/-- Redis `ZADD key score member`: update the member's score if present,
append it otherwise. -/
def zadd (t : Tree μ) (key : String) (score : Int) (m : Completion μ) : Tree μ :=
  let bucket := (Kv.get t key).getD []
  let bucket' :=
    if bucket.any (fun p => p.1 = m) then
      bucket.map (fun p => if p.1 = m then (p.1, score) else p)
    else bucket ++ [(m, score)]
  Kv.set t key bucket'

/-- The inner loop of `add`: `for (let i = 1; i <= maxLen; i++)
pipeline.zadd(getKey(word.substring(0, i)), 1, completionData)`. -/
def addWord (t : Tree μ) (word : String) (m : Completion μ) : Tree μ :=
  (List.range (min word.length MAX_PREFIX_LENGTH)).foldl
    (fun acc i => zadd acc (strTake word (i + 1)) 1 m) t

/-- `PrefixTree.add(text, metadata)`: index every prefix (up to length 10)
of every tokenized word under the shared completion record. -/
def add (t : Tree μ) (text : String) (metadata : μ) (now : Nat) : Tree μ :=
  (tokenize text).foldl (fun acc w => addWord acc w ⟨text, metadata, now⟩) t

/-- Insert into a score-descending list, after existing entries of the
same score (Redis ZREVRANGE is score-descending; tie order among equal
scores is a modelling choice — the claims proved below never depend on
it). -/
def insertDesc (p : Completion μ × Int) :
    List (Completion μ × Int) → List (Completion μ × Int)
  | [] => [p]
  | q :: rest => if q.2 < p.2 then p :: q :: rest else q :: insertDesc p rest

/-- Sort members by score, highest first. -/
def sortDesc (l : List (Completion μ × Int)) : List (Completion μ × Int) :=
  l.foldl (fun acc p => insertDesc p acc) []

/-- The dedup-and-truncate loop of `search`: keep the first occurrence of
each `text.trim().toLowerCase()` identifier and stop once `limit` unique
results have been collected. -/
def dedupTake (limit : Nat) : List (Completion μ) → List String → Nat → List (Completion μ)
  | [], _, _ => []
  | c :: rest, seen, count =>
      let idf := strToLower (strTrim c.text)
      if seen.contains idf then dedupTake limit rest seen count
      else if limit ≤ count + 1 then [c]
      else c :: dedupTake limit rest (idf :: seen) (count + 1)

/-- `PrefixTree.search(prefix, limit = 10)`: ZREVRANGE the key of the
lowercased prefix over ranks `0 .. limit*3 - 1`, then deduplicate by
normalized text up to `limit` results. -/
def search (t : Tree μ) (pfx : String) (limit : Nat := 10) : List (Completion μ) :=
  if pfx.length < 1 then []
  else
    let key := strToLower pfx
    let results := (sortDesc ((Kv.get t key).getD [])).take (limit * 3)
    dedupTake limit (results.map Prod.fst) [] 0

/-- `PrefixTree.remove(text)`: ZREM, from every prefix bucket of every
tokenized word, the members whose normalized text equals the normalized
`text`. -/
def remove (t : Tree μ) (text : String) : Tree μ :=
  (tokenize text).foldl
    (fun acc w =>
      (List.range (min w.length MAX_PREFIX_LENGTH)).foldl
        (fun acc2 i =>
          Kv.update acc2 (strTake w (i + 1))
            (fun bucket => bucket.filter
              (fun p => strToLower (strTrim p.1.text) ≠ strToLower (strTrim text))))
        acc)
    t

/-- `PrefixTree.incrementScore(text, increment = 1)`: ZINCRBY the members
whose normalized text equals the normalized `text`, in every prefix bucket
of every tokenized word. -/
def incrementScore (t : Tree μ) (text : String) (inc : Int) : Tree μ :=
  (tokenize text).foldl
    (fun acc w =>
      (List.range (min w.length MAX_PREFIX_LENGTH)).foldl
        (fun acc2 i =>
          Kv.update acc2 (strTake w (i + 1))
            (fun bucket => bucket.map
              (fun p =>
                if strToLower (strTrim p.1.text) = strToLower (strTrim text) then
                  (p.1, p.2 + inc)
                else p)))
        acc)
    t

end PrefixTree

/-! ## Global state

One record holding the MongoDB collections, the Redis hash caches, the
Redis feed lists and totals, and the three prefix trees. -/

/-- The metadata objects stored in the three prefix trees
(`services/prefixSearchService.js`; the constant `type` discriminator is
the constructor). -/
inductive Meta where
  | postM (postId title contentPreview userId : String) (upvotes : Int) (createdAt : Nat)
  | tagM (tag postId : String)
  | userM (userId name : String) (avatarLink : Option String) (joinDate : Nat)
  deriving DecidableEq, Repr

/-- The combined store state.  Vote documents are cached through
`rediscon.postsCacheGet('vote:' + voteId)`; the `vote:`-prefixed keys are
disjoint from post-id keys, so they are modelled as a separate table keyed
by `voteId`. -/
structure St where
  postsDb : List (String × PostDoc) := []
  usersDb : List (String × UserDoc) := []
  commentsDb : List (String × CommentDoc) := []
  votesDb : List (String × VoteDoc) := []
  feedbackDb : List (String × FeedbackDoc) := []
  postsCache : List (String × PostDoc) := []
  usersCache : List (String × UserDoc) := []
  commentsCache : List (String × CommentDoc) := []
  votesCache : List (String × VoteDoc) := []
  feedCache : List (String × List String) := []
  feedTotals : List (String × Int) := []
  postsTree : PrefixTree.Tree Meta := []
  usersTree : PrefixTree.Tree Meta := []
  tagsTree : PrefixTree.Tree Meta := []
  deriving DecidableEq, Repr

/-- The result of an instrumented read method: the returned value, whether
a cache lookup was performed before any database access, and whether the
database was queried. -/
structure Read (α : Type) where
  result : α
  readCache : Bool
  queriedDb : Bool
  deriving DecidableEq, Repr

/-! ### JS falsy-default helpers (`a || b`) -/

/-- `data.field || default` for a numeric field: `0`, like `undefined`, is
falsy. -/
def jsOrInt (o : Option Int) (d : Int) : Int :=
  match o with
  | none => d
  | some v => if v = 0 then d else v

/-- `data.field || default` for a timestamp field. -/
def jsOrNat (o : Option Nat) (d : Nat) : Nat :=
  match o with
  | none => d
  | some v => if v = 0 then d else v

/-- `data.field || default` for a string field: the empty string is
falsy. -/
def jsOrStr (o : Option String) (d : String) : String :=
  match o with
  | none => d
  | some v => if v = "" then d else v

/-- `data.field || false` for a boolean field. -/
def jsOrBool (o : Option Bool) (d : Bool) : Bool :=
  match o with
  | some true => true
  | _ => d

/-- `data.field || null` for a nullable string field. -/
def jsOrNullStr (o : Option String) : Option String :=
  match o with
  | some "" => none
  | x => x

/-! ### MongoDB `updateOne` helpers -/

/-- `updateOne({key}, update)`: returns whether `modifiedCount > 0`
(the document exists and the update actually changed it) and the new
collection. -/
def mongoUpdate [DecidableEq α] (l : List (String × α)) (k : String) (f : α → α) :
    Bool × List (String × α) :=
  match Kv.get l k with
  | none => (false, l)
  | some v => if f v = v then (false, l) else (true, Kv.update l k f)

/-- `updateOne({key, pred}, update)`: as `mongoUpdate` but the filter also
requires `pred` on the document (used by `removeUpvote` / `removeDownvote`
with `{ $gt: 0 }`). -/
def mongoUpdateIf [DecidableEq α] (l : List (String × α)) (k : String)
    (pred : α → Bool) (f : α → α) : Bool × List (String × α) :=
  match Kv.get l k with
  | none => (false, l)
  | some v =>
      if pred v then
        if f v = v then (false, l) else (true, Kv.update l k f)
      else (false, l)

/-! ### Redis feed-list helpers (`config/rediscon.js`) -/

/-- `feedCachePushFront` (LPUSH). -/
def Feed.pushFront (f : List (String × List String)) (key pid : String) :
    List (String × List String) :=
  Kv.set f key (pid :: (Kv.get f key).getD [])

/-- `feedCacheTrim` (LTRIM start stop, keeping indexes `start..stop`;
the code only uses non-negative indexes). -/
def Feed.trim (f : List (String × List String)) (key : String) (start stop : Nat) :
    List (String × List String) :=
  Kv.update f key (fun l => (l.drop start).take (stop + 1 - start))

/-- `feedCacheRemove` (LREM count 0: remove all occurrences). -/
def Feed.remove (f : List (String × List String)) (key pid : String) :
    List (String × List String) :=
  Kv.update f key (fun l => l.filter (fun x => x ≠ pid))

/-- `feedCacheClear` (DEL). -/
def Feed.clear (f : List (String × List String)) (key : String) :
    List (String × List String) :=
  Kv.del f key

/-! ## `models/User.js` -/

namespace User

/-- `User.findByUserId` (`src/models/User.js` 72–89): cache-aside read. -/
def findByUserId (s : St) (userId : String) : Read (Option UserDoc) × St :=
  match Kv.get s.usersCache userId with
  | some u => (⟨some u, true, false⟩, s)
  | none =>
      match Kv.get s.usersDb userId with
      | some u => (⟨some u, true, true⟩, { s with usersCache := Kv.set s.usersCache userId u })
      | none => (⟨none, true, true⟩, s)

/-- `User.findByGmailId` (`src/models/User.js` 58–70): a direct
`findOne({ gmailId })` with no cache access. -/
def findByGmailId (s : St) (gmailId : String) : Read (Option UserDoc) × St :=
  (⟨(s.usersDb.find? (fun p => p.2.gmailId = gmailId)).map Prod.snd, false, true⟩, s)

/-- `User.addPost`: `$addToSet postIds`, cache invalidated when
modified. -/
def addPost (s : St) (userId postId : String) : Bool × St :=
  let r := mongoUpdate s.usersDb userId
    (fun u => if postId ∈ u.postIds then u else { u with postIds := u.postIds ++ [postId] })
  if r.1 then
    (true, { s with usersDb := r.2, usersCache := Kv.del s.usersCache userId })
  else (false, { s with usersDb := r.2 })

/-- `User.addComment` (`src/models/User.js` 246–267): `$addToSet
commentIds`, cache invalidated when modified. -/
def addComment (s : St) (userId commentId : String) : Bool × St :=
  let r := mongoUpdate s.usersDb userId
    (fun u => if commentId ∈ u.commentIds then u else { u with commentIds := u.commentIds ++ [commentId] })
  if r.1 then
    (true, { s with usersDb := r.2, usersCache := Kv.del s.usersCache userId })
  else (false, { s with usersDb := r.2 })

/-- `User.removePost`: `$pull postIds`. -/
def removePost (s : St) (userId postId : String) : Bool × St :=
  let r := mongoUpdate s.usersDb userId
    (fun u => { u with postIds := u.postIds.filter (fun x => x ≠ postId) })
  if r.1 then
    (true, { s with usersDb := r.2, usersCache := Kv.del s.usersCache userId })
  else (false, { s with usersDb := r.2 })

/-- `User.removeComment` (`src/models/User.js` 293–313): `$pull
commentIds`.  The `commentId` argument is an `Option` because
`Comment.hardDeleteComment` calls this with the argument missing
(`undefined`); the resulting `$pull` matches no string element. -/
def removeComment (s : St) (userId : String) (commentId : Option String) : Bool × St :=
  let r := mongoUpdate s.usersDb userId
    (fun u => { u with commentIds := u.commentIds.filter (fun x => some x ≠ commentId) })
  if r.1 then
    (true, { s with usersDb := r.2, usersCache := Kv.del s.usersCache userId })
  else (false, { s with usersDb := r.2 })

end User

/-! ## `services/prefixSearchService.js` (post indexing) -/

namespace PrefixSearchService

/-- `MAX_TITLE_LENGTH = 200`. -/
def MAX_TITLE_LENGTH : Nat := 200

/-- `MAX_CONTENT_LENGTH = 500`. -/
def MAX_CONTENT_LENGTH : Nat := 500

/-- The `searchableText` built by `indexPost` / `removePostIndex`:
truncated title and content preview, joined and trimmed. -/
def searchableText (p : PostDoc) : String :=
  strTrim (strTake p.title MAX_TITLE_LENGTH ++ " " ++ strTake p.content MAX_CONTENT_LENGTH)

/-- The post metadata stored with each completion. -/
def postMeta (p : PostDoc) : Meta :=
  Meta.postM p.postId p.title (strTake p.content 100) p.userId p.upvotes p.createdAt

/-- `PrefixSearchService.indexPost(post)`: add the searchable text to the
posts tree and each tag to the tags tree (no-op when the searchable text
is empty). -/
def indexPost (pt tt : PrefixTree.Tree Meta) (p : PostDoc) (now : Nat) :
    PrefixTree.Tree Meta × PrefixTree.Tree Meta :=
  if (searchableText p).length = 0 then (pt, tt)
  else
    (PrefixTree.add pt (searchableText p) (postMeta p) now,
     p.tags.foldl (fun acc tag => PrefixTree.add acc tag (Meta.tagM tag p.postId) now) tt)

/-- `PrefixSearchService.removePostIndex(post)`. -/
def removePostIndex (pt tt : PrefixTree.Tree Meta) (p : PostDoc) :
    PrefixTree.Tree Meta × PrefixTree.Tree Meta :=
  (PrefixTree.remove pt (searchableText p),
   p.tags.foldl (fun acc tag => PrefixTree.remove acc tag) tt)

/-- `PrefixSearchService.updatePostIndex(oldPost, newPost)`: remove the old
entry, then `indexPost` the new one. -/
def updatePostIndex (pt tt : PrefixTree.Tree Meta) (oldPost newPost : PostDoc)
    (now : Nat) : PrefixTree.Tree Meta × PrefixTree.Tree Meta :=
  let r := removePostIndex pt tt oldPost
  indexPost r.1 r.2 newPost now

end PrefixSearchService

/-! ## `models/Post.js` (the second, feed-cache-aware revision, lines
651–1694 of the concatenated source, whose line numbers the claims
reference) -/

namespace Post

/-- The argument object of `new Post(data)`; absent JS properties are
`none`. -/
structure PostData where
  postId : Option String := none
  userId : String
  title : String
  content : String
  tags : Option (List String) := none
  upvotes : Option Int := none
  downvotes : Option Int := none
  commentIds : Option (List String) := none
  createdAt : Option Nat := none
  updatedAt : Option Nat := none
  isPinned : Option Bool := none
  isLocked : Option Bool := none
  viewCount : Option Int := none
  media : Option (List String) := none

/-- The `Post` constructor: fill defaults (`new ObjectId()` is the caller-
supplied fresh id, `new Date()` is `now`). -/
def PostDoc.ofData (d : PostData) (freshId : String) (now : Nat) : PostDoc where
  postId := jsOrStr d.postId freshId
  userId := d.userId
  title := d.title
  content := d.content
  tags := d.tags.getD []
  upvotes := jsOrInt d.upvotes 0
  downvotes := jsOrInt d.downvotes 0
  commentIds := d.commentIds.getD []
  createdAt := jsOrNat d.createdAt now
  updatedAt := jsOrNat d.updatedAt now
  isPinned := jsOrBool d.isPinned false
  isLocked := jsOrBool d.isLocked false
  viewCount := jsOrInt d.viewCount 0
  media := d.media.getD []

/-- `Post.getFeedCacheKey(sortBy, order)`. -/
def getFeedCacheKey (sortBy : String) (order : Int) : String :=
  "posts:feed:" ++ sortBy ++ ":" ++ (if order = 1 then "asc" else "desc")

/-- `Post.findByPostId` (`src/models/Post.js` 765–782): cache-aside
read. -/
def findByPostId (s : St) (postId : String) : Read (Option PostDoc) × St :=
  match Kv.get s.postsCache postId with
  | some p => (⟨some p, true, false⟩, s)
  | none =>
      match Kv.get s.postsDb postId with
      | some p => (⟨some p, true, true⟩, { s with postsCache := Kv.set s.postsCache postId p })
      | none => (⟨none, true, true⟩, s)

/-- `Post.create` (`src/models/Post.js` 718–763): insert, cache the post,
add to the author's `postIds`, push onto the `createdAt:desc` feed list
(trimmed to 50), and index in the prefix trees.  A duplicate `_id` makes
`insertOne` throw, modelled by the `none` result. -/
def create (s : St) (d : PostData) (freshId : String) (now : Nat) :
    Option PostDoc × St :=
  let p := PostDoc.ofData d freshId now
  match Kv.insert s.postsDb p.postId p with
  | none => (none, s)
  | some db =>
      let s1 := { s with postsDb := db, postsCache := Kv.set s.postsCache p.postId p }
      let s2 := (User.addPost s1 p.userId p.postId).2
      let feedKey := getFeedCacheKey "createdAt" (-1)
      let s3 := { s2 with
        feedCache := Feed.trim (Feed.pushFront s2.feedCache feedKey p.postId) feedKey 0 49 }
      let idx := PrefixSearchService.indexPost s3.postsTree s3.tagsTree p now
      (some p, { s3 with postsTree := idx.1, tagsTree := idx.2 })

/-- The update object of `Post.updatePost`; only `title` and `content`
are read from it. -/
structure UpdateData where
  title : Option String := none
  content : Option String := none
  deriving DecidableEq, Repr

/-- The `$set` object of `Post.updatePost` applied to a document:
`allowedUpdates` holds `title` and/or `content` when supplied, plus
`updatedAt`. -/
def applyUpdate (upd : UpdateData) (now : Nat) (p : PostDoc) : PostDoc :=
  { p with
    title := upd.title.getD p.title
    content := upd.content.getD p.content
    updatedAt := now }

/-- `Post.updatePost` (`src/models/Post.js` 1327–1368): read the old post
(cache-aside), `$set` only title/content/updatedAt, invalidate and
repopulate the cache, and update the prefix index. -/
def updatePost (s : St) (postId : String) (upd : UpdateData) (now : Nat) :
    Option PostDoc × St :=
  let r0 := findByPostId s postId
  match r0.1.result with
  | none => (none, r0.2)
  | some oldPost =>
      if upd.title = none ∧ upd.content = none then (none, r0.2)
      else
        let u := mongoUpdate r0.2.postsDb postId (applyUpdate upd now)
        if u.1 then
          let s1 := { r0.2 with postsDb := u.2, postsCache := Kv.del r0.2.postsCache postId }
          let r1 := findByPostId s1 postId
          match r1.1.result with
          | none => (none, r1.2)
          | some newPost =>
              let idx := PrefixSearchService.updatePostIndex r1.2.postsTree r1.2.tagsTree
                oldPost newPost now
              (some newPost, { r1.2 with postsTree := idx.1, tagsTree := idx.2 })
        else (none, { r0.2 with postsDb := u.2 })

/-- `Post.incrementViewCount` (`src/models/Post.js` 1370–1396): `$inc
viewCount`, and patch the cached copy when one exists. -/
def incrementViewCount (s : St) (postId : String) : Bool × St :=
  let u := mongoUpdate s.postsDb postId (fun p => { p with viewCount := p.viewCount + 1 })
  if u.1 then
    let s1 := { s with postsDb := u.2 }
    match Kv.get s1.postsCache postId with
    | some cached =>
        let c2 := { cached with viewCount := cached.viewCount + 1 }
        (true, { s1 with postsCache := Kv.set s1.postsCache postId c2 })
    | none => (true, s1)
  else (false, s)

/-- `Post.upvote` (`src/models/Post.js` 1398–1431): `$inc upvotes`; patch
the cached copy when one exists, otherwise fetch and cache the updated
post. -/
def upvote (s : St) (postId : String) : Bool × St :=
  let u := mongoUpdate s.postsDb postId (fun p => { p with upvotes := p.upvotes + 1 })
  if u.1 then
    let s1 := { s with postsDb := u.2 }
    match Kv.get s1.postsCache postId with
    | some cached =>
        let c2 := { cached with upvotes := cached.upvotes + 1 }
        (true, { s1 with postsCache := Kv.set s1.postsCache postId c2 })
    | none =>
        match Kv.get u.2 postId with
        | some updated => (true, { s1 with postsCache := Kv.set s1.postsCache postId updated })
        | none => (true, s1)
  else (false, s)

/-- `Post.downvote` (`src/models/Post.js` 1433–1466). -/
def downvote (s : St) (postId : String) : Bool × St :=
  let u := mongoUpdate s.postsDb postId (fun p => { p with downvotes := p.downvotes + 1 })
  if u.1 then
    let s1 := { s with postsDb := u.2 }
    match Kv.get s1.postsCache postId with
    | some cached =>
        let c2 := { cached with downvotes := cached.downvotes + 1 }
        (true, { s1 with postsCache := Kv.set s1.postsCache postId c2 })
    | none =>
        match Kv.get u.2 postId with
        | some updated => (true, { s1 with postsCache := Kv.set s1.postsCache postId updated })
        | none => (true, s1)
  else (false, s)

/-- `Post.removeUpvote` (`src/models/Post.js` 1467–1500): `$inc upvotes:
-1` filtered by `upvotes > 0`; patch the cached copy when it has positive
upvotes, otherwise (cache miss) fetch and cache the updated post. -/
def removeUpvote (s : St) (postId : String) : Bool × St :=
  let u := mongoUpdateIf s.postsDb postId (fun p => 0 < p.upvotes)
    (fun p => { p with upvotes := p.upvotes - 1 })
  if u.1 then
    let s1 := { s with postsDb := u.2 }
    match Kv.get s1.postsCache postId with
    | some cached =>
        if 0 < cached.upvotes then
          let c2 := { cached with upvotes := cached.upvotes - 1 }
          (true, { s1 with postsCache := Kv.set s1.postsCache postId c2 })
        else (true, s1)
    | none =>
        match Kv.get u.2 postId with
        | some updated => (true, { s1 with postsCache := Kv.set s1.postsCache postId updated })
        | none => (true, s1)
  else (false, s)

/-- `Post.removeDownvote` (`src/models/Post.js` 1502–1535). -/
def removeDownvote (s : St) (postId : String) : Bool × St :=
  let u := mongoUpdateIf s.postsDb postId (fun p => 0 < p.downvotes)
    (fun p => { p with downvotes := p.downvotes - 1 })
  if u.1 then
    let s1 := { s with postsDb := u.2 }
    match Kv.get s1.postsCache postId with
    | some cached =>
        if 0 < cached.downvotes then
          let c2 := { cached with downvotes := cached.downvotes - 1 }
          (true, { s1 with postsCache := Kv.set s1.postsCache postId c2 })
        else (true, s1)
    | none =>
        match Kv.get u.2 postId with
        | some updated => (true, { s1 with postsCache := Kv.set s1.postsCache postId updated })
        | none => (true, s1)
  else (false, s)

/-- `Post.addComment` (`src/models/Post.js` 1537–1563): `$addToSet
commentIds`; when modified and a cached copy exists without the id, push
it there too. -/
def addComment (s : St) (postId commentId : String) : Bool × St :=
  let u := mongoUpdate s.postsDb postId
    (fun p => if commentId ∈ p.commentIds then p else { p with commentIds := p.commentIds ++ [commentId] })
  if u.1 then
    let s1 := { s with postsDb := u.2 }
    match Kv.get s1.postsCache postId with
    | some cached =>
        if commentId ∈ cached.commentIds then (true, s1)
        else
          let c2 := { cached with commentIds := cached.commentIds ++ [commentId] }
          (true, { s1 with postsCache := Kv.set s1.postsCache postId c2 })
    | none => (true, s1)
  else (false, s)

/-- `Post.removeComment` (`src/models/Post.js` 1566–1594): `$pull
commentIds` (all occurrences); the cached copy gets the first occurrence
spliced out and is re-set.  The `commentId` argument is an `Option`
because `Comment.hardDeleteComment` calls this with the argument missing
(`undefined`); that `$pull` matches no string element. -/
def removeComment (s : St) (postId : String) (commentId : Option String) : Bool × St :=
  let u := mongoUpdate s.postsDb postId
    (fun p => { p with commentIds := p.commentIds.filter (fun x => some x ≠ commentId) })
  if u.1 then
    let s1 := { s with postsDb := u.2 }
    match Kv.get s1.postsCache postId with
    | some cached =>
        let ids := match commentId with
          | none => cached.commentIds
          | some cid => cached.commentIds.erase cid
        (true, { s1 with postsCache := Kv.set s1.postsCache postId { cached with commentIds := ids } })
    | none => (true, s1)
  else (false, s)

/-- `Post.togglePin` (`src/models/Post.js` 1596–1619): read the document
(directly from the DB), `$set isPinned` to its negation, invalidate the
cache.  A missing post makes the method throw (`none`). -/
def togglePin (s : St) (postId : String) : Option Bool × St :=
  match Kv.get s.postsDb postId with
  | none => (none, s)
  | some post =>
      let u := mongoUpdate s.postsDb postId (fun p => { p with isPinned := !post.isPinned })
      if u.1 then
        (some true, { s with postsDb := u.2, postsCache := Kv.del s.postsCache postId })
      else (some false, { s with postsDb := u.2 })

/-- `Post.toggleLock` (`src/models/Post.js` 1621–1644). -/
def toggleLock (s : St) (postId : String) : Option Bool × St :=
  match Kv.get s.postsDb postId with
  | none => (none, s)
  | some post =>
      let u := mongoUpdate s.postsDb postId (fun p => { p with isLocked := !post.isLocked })
      if u.1 then
        (some true, { s with postsDb := u.2, postsCache := Kv.del s.postsCache postId })
      else (some false, { s with postsDb := u.2 })

end Post

/-! ## `models/Vote.js` -/

namespace Vote

/-- `Vote.getVoteKey(postId, userId)`: the composite key. -/
def getVoteKey (postId userId : String) : String := postId ++ "_" ++ userId

/-- `Vote.findVote` (`src/models/Vote.js` 21–44): cache-aside read through
the `vote:`-prefixed posts-cache keys. -/
def findVote (s : St) (postId userId : String) : Read (Option VoteDoc) × St :=
  let voteId := getVoteKey postId userId
  match Kv.get s.votesCache voteId with
  | some v => (⟨some v, true, false⟩, s)
  | none =>
      match Kv.get s.votesDb voteId with
      | some v => (⟨some v, true, true⟩, { s with votesCache := Kv.set s.votesCache voteId v })
      | none => (⟨none, true, true⟩, s)

/-- `Vote.handleUpvote` (`src/models/Vote.js` 46–155).  The result is the
`action` string of the returned object (`none` models a thrown error or
the fall-through `undefined`). -/
def handleUpvote (s : St) (postId userId : String) (now : Nat) :
    Option String × St :=
  let voteId := getVoteKey postId userId
  let r := findVote s postId userId
  let s0 := r.2
  match r.1.result with
  | none =>
      let v : VoteDoc :=
        { voteId := voteId, postId := postId, userId := userId,
          vote := 1, createdAt := now, updatedAt := now }
      match Kv.insert s0.votesDb voteId v with
      | none => (none, s0)
      | some db =>
          let s1 := { s0 with votesDb := db, votesCache := Kv.set s0.votesCache voteId v }
          (some "upvoted", (Post.upvote s1 postId).2)
  | some ev =>
      if ev.vote = 1 then
        let u := mongoUpdate s0.votesDb voteId (fun v => { v with vote := 0, updatedAt := now })
        let cv := { ev with vote := 0, updatedAt := now }
        let s1 := { s0 with votesDb := u.2, votesCache := Kv.set s0.votesCache voteId cv }
        (some "removed_upvote", (Post.removeUpvote s1 postId).2)
      else if ev.vote = -1 then
        let u := mongoUpdate s0.votesDb voteId (fun v => { v with vote := 1, updatedAt := now })
        let cv := { ev with vote := 1, updatedAt := now }
        let s1 := { s0 with votesDb := u.2, votesCache := Kv.set s0.votesCache voteId cv }
        let s2 := (Post.removeDownvote s1 postId).2
        (some "changed_to_upvote", (Post.upvote s2 postId).2)
      else if ev.vote = 0 then
        let u := mongoUpdate s0.votesDb voteId (fun v => { v with vote := 1, updatedAt := now })
        let cv := { ev with vote := 1, updatedAt := now }
        let s1 := { s0 with votesDb := u.2, votesCache := Kv.set s0.votesCache voteId cv }
        (some "upvoted", (Post.upvote s1 postId).2)
      else (none, s0)

/-- `Vote.handleDownvote` (`src/models/Vote.js` 157–266). -/
def handleDownvote (s : St) (postId userId : String) (now : Nat) :
    Option String × St :=
  let voteId := getVoteKey postId userId
  let r := findVote s postId userId
  let s0 := r.2
  match r.1.result with
  | none =>
      let v : VoteDoc :=
        { voteId := voteId, postId := postId, userId := userId,
          vote := -1, createdAt := now, updatedAt := now }
      match Kv.insert s0.votesDb voteId v with
      | none => (none, s0)
      | some db =>
          let s1 := { s0 with votesDb := db, votesCache := Kv.set s0.votesCache voteId v }
          (some "downvoted", (Post.downvote s1 postId).2)
  | some ev =>
      if ev.vote = -1 then
        let u := mongoUpdate s0.votesDb voteId (fun v => { v with vote := 0, updatedAt := now })
        let cv := { ev with vote := 0, updatedAt := now }
        let s1 := { s0 with votesDb := u.2, votesCache := Kv.set s0.votesCache voteId cv }
        (some "removed_downvote", (Post.removeDownvote s1 postId).2)
      else if ev.vote = 1 then
        let u := mongoUpdate s0.votesDb voteId (fun v => { v with vote := -1, updatedAt := now })
        let cv := { ev with vote := -1, updatedAt := now }
        let s1 := { s0 with votesDb := u.2, votesCache := Kv.set s0.votesCache voteId cv }
        let s2 := (Post.removeUpvote s1 postId).2
        (some "changed_to_downvote", (Post.downvote s2 postId).2)
      else if ev.vote = 0 then
        let u := mongoUpdate s0.votesDb voteId (fun v => { v with vote := -1, updatedAt := now })
        let cv := { ev with vote := -1, updatedAt := now }
        let s1 := { s0 with votesDb := u.2, votesCache := Kv.set s0.votesCache voteId cv }
        (some "downvoted", (Post.downvote s1 postId).2)
      else (none, s0)

/-- `Vote.removeVote` (`src/models/Vote.js` 269–301): delete the vote
document (instead of zeroing it) and decrement the matching post
counter. -/
def removeVote (s : St) (postId userId : String) : Option String × St :=
  let voteId := getVoteKey postId userId
  let r := findVote s postId userId
  let s0 := r.2
  match r.1.result with
  | none => (some "no_change", s0)
  | some ev =>
      if ev.vote = 0 then (some "no_change", s0)
      else
        let s1 := { s0 with
          votesDb := Kv.delete s0.votesDb voteId,
          votesCache := Kv.del s0.votesCache voteId }
        let s2 :=
          if ev.vote = 1 then (Post.removeUpvote s1 postId).2
          else if ev.vote = -1 then (Post.removeDownvote s1 postId).2
          else s1
        (some "removed_vote", s2)

/-- `Vote.getVotesByUserId` (`src/models/Vote.js` 314–356): an aggregate
over the vote collection (match `userId`, `vote ≠ 0`; sort by `updatedAt`
descending; paginate) with no cache access. -/
def getVotesByUserId (s : St) (userId : String) (page limit : Nat) :
    Read (List VoteDoc × Nat) × St :=
  let matched := (s.votesDb.map Prod.snd).filter (fun v => v.userId = userId && v.vote ≠ 0)
  let sorted := matched.mergeSort (fun a b => b.updatedAt ≤ a.updatedAt)
  let skip := (page - 1) * limit
  (⟨((sorted.drop skip).take limit, matched.length), false, true⟩, s)

/-- `Vote.deleteVotesByPostId` (`src/models/Vote.js` 403–425):
`deleteMany({postId})` and clear each deleted vote's cache entry. -/
def deleteVotesByPostId (s : St) (postId : String) : Nat × St :=
  let victims := s.votesDb.filter (fun p => p.2.postId = postId)
  let db := s.votesDb.filter (fun p => p.2.postId ≠ postId)
  let cache := victims.foldl (fun c p => Kv.del c p.2.voteId) s.votesCache
  (victims.length, { s with votesDb := db, votesCache := cache })

end Vote

/-- `Post.deletePost` (`src/models/Post.js` 1646–1691): delete the
document (media file deletion is an external ImageKit call with no model
state), then invalidate the post cache, pull the id from the author's
`postIds`, LREM the id from the three feed lists, drop the cached totals,
remove the prefix-index entries and cascade-delete the votes.  Declared
outside `namespace Post` because it calls into `Vote`, which itself calls
`Post` operations. -/
def Post.deletePost (s : St) (postId userId : String) : Bool × St :=
  match Kv.get s.postsDb postId with
  | none => (false, s)
  | some post =>
      let s1 := { s with
        postsDb := Kv.delete s.postsDb postId,
        postsCache := Kv.del s.postsCache postId }
      let s2 := (User.removePost s1 userId postId).2
      let f1 := Feed.remove s2.feedCache (Post.getFeedCacheKey "createdAt" (-1)) postId
      let f2 := Feed.remove f1 (Post.getFeedCacheKey "createdAt" 1) postId
      let f3 := Feed.remove f2 (Post.getFeedCacheKey "upvotes" (-1)) postId
      let t1 := Kv.del (Kv.del s2.feedTotals "posts:total:createdAt") "posts:total:upvotes"
      let s3 := { s2 with feedCache := f3, feedTotals := t1 }
      let idx := PrefixSearchService.removePostIndex s3.postsTree s3.tagsTree post
      let s4 := { s3 with postsTree := idx.1, tagsTree := idx.2 }
      (true, (Vote.deleteVotesByPostId s4 postId).2)

/-! ## `models/Comment.js` -/

namespace Comment

/-- The argument object of `new Comment(data)`. -/
structure CommentData where
  commentId : Option String := none
  postId : String
  userId : String
  content : String
  parentCommentId : Option String := none
  upvotes : Option Int := none
  downvotes : Option Int := none
  createdAt : Option Nat := none
  updatedAt : Option Nat := none
  isEdited : Option Bool := none
  isDeleted : Option Bool := none

/-- The `Comment` constructor. -/
def CommentDoc.ofData (d : CommentData) (freshId : String) (now : Nat) : CommentDoc where
  commentId := jsOrStr d.commentId freshId
  postId := d.postId
  userId := d.userId
  content := d.content
  parentCommentId := jsOrNullStr d.parentCommentId
  upvotes := jsOrInt d.upvotes 0
  downvotes := jsOrInt d.downvotes 0
  createdAt := jsOrNat d.createdAt now
  updatedAt := jsOrNat d.updatedAt now
  isEdited := jsOrBool d.isEdited false
  isDeleted := jsOrBool d.isDeleted false

/-- `Comment.create` (`src/models/Comment.js` 23–55): insert the comment,
cache it, then fire `User.addComment` and `Post.addComment` without
`await` (fire-and-forget); `userOk` / `postOk` model whether those
promises succeed (a rejection leaves its update unapplied and nothing is
rolled back). -/
def create (s : St) (d : CommentData) (freshId : String) (now : Nat)
    (userOk postOk : Bool) : Option CommentDoc × St :=
  let c := CommentDoc.ofData d freshId now
  match Kv.insert s.commentsDb c.commentId c with
  | none => (none, s)
  | some db =>
      let s1 := { s with commentsDb := db, commentsCache := Kv.set s.commentsCache c.commentId c }
      let s2 := if userOk then (User.addComment s1 c.userId c.commentId).2 else s1
      let s3 := if postOk then (Post.addComment s2 c.postId c.commentId).2 else s2
      (some c, s3)

/-- `Comment.findByCommentId` (`src/models/Comment.js` 57–74): cache-aside
read. -/
def findByCommentId (s : St) (commentId : String) : Read (Option CommentDoc) × St :=
  match Kv.get s.commentsCache commentId with
  | some c => (⟨some c, true, false⟩, s)
  | none =>
      match Kv.get s.commentsDb commentId with
      | some c => (⟨some c, true, true⟩, { s with commentsCache := Kv.set s.commentsCache commentId c })
      | none => (⟨none, true, true⟩, s)

/-- `Comment.softDeleteComment` (`src/models/Comment.js` 496–521): `$set
isDeleted 1, content "[deleted]", updatedAt now`, invalidating the cache
when modified.  The `commentIds` arrays of the post and the user are not
touched. -/
def softDeleteComment (s : St) (commentId : String) (now : Nat) : Bool × St :=
  let u := mongoUpdate s.commentsDb commentId
    (fun c => { c with isDeleted := true, content := "[deleted]", updatedAt := now })
  if u.1 then
    (true, { s with commentsDb := u.2, commentsCache := Kv.del s.commentsCache commentId })
  else (false, s)

/-- `Comment.hardDeleteComment` (`src/models/Comment.js` 524–538): delete
the document and its cache entry, then call `Post.removeComment(postId)`
and `User.removeComment(userId)` — both with the `commentId` argument
missing, so neither `$pull` removes anything. -/
def hardDeleteComment (s : St) (commentId postId userId : String) : Bool × St :=
  let existed := (Kv.get s.commentsDb commentId).isSome
  let s1 := { s with
    commentsDb := Kv.delete s.commentsDb commentId,
    commentsCache := Kv.del s.commentsCache commentId }
  let s2 := (Post.removeComment s1 postId none).2
  let s3 := (User.removeComment s2 userId none).2
  (existed, s3)

/-- `Comment.deleteCommentsByPostId` (`src/models/Comment.js` 587–648):
collect the comment ids from the post (falling back to a collection
scan), `deleteMany` them, clear their cache entries, `$set` the post's
`commentIds` to `[]` (invalidating the post cache), and then try to pull
each id from its author's `commentIds` — but the per-id `findOne` runs
after the `deleteMany`, finds nothing, and so no user is ever updated. -/
def deleteCommentsByPostId (s : St) (postId : String) : Nat × St :=
  let r := Post.findByPostId s postId
  let s0 := r.2
  let fallback := (s0.commentsDb.filter (fun p => p.2.postId = postId)).map (fun p => p.2.commentId)
  let commentIds :=
    match r.1.result with
    | some post => if post.commentIds.isEmpty then fallback else post.commentIds
    | none => fallback
  if commentIds.isEmpty then (0, s0)
  else
    let deleted := (s0.commentsDb.filter (fun p => p.2.commentId ∈ commentIds)).length
    let db := s0.commentsDb.filter (fun p => p.2.commentId ∉ commentIds)
    let cache := commentIds.foldl (fun c cid => Kv.del c cid) s0.commentsCache
    let s1 := { s0 with commentsDb := db, commentsCache := cache }
    let s2 := { s1 with
      postsDb := Kv.update s1.postsDb postId (fun p => { p with commentIds := [] }),
      postsCache := Kv.del s1.postsCache postId }
    let s3 := commentIds.foldl
      (fun st cid =>
        match Kv.get st.commentsDb cid with
        | some c => (User.removeComment st c.userId (some cid)).2
        | none => st)
      s2
    (deleted, s3)

end Comment

/-! ## `models/Feedback.js` -/

namespace Feedback

/-- `Feedback.getAllFeedback` (`src/models/Feedback.js` 402–442): an
aggregate over the feedback collection (sort by `createdAt` — the only
sort field its callers pass — paginate, count) with no cache access. -/
def getAllFeedback (s : St) (page limit : Nat) (order : Int) :
    Read (List FeedbackDoc × Nat) × St :=
  let docs := s.feedbackDb.map Prod.snd
  let sorted := docs.mergeSort
    (fun a b => if order = -1 then b.createdAt ≤ a.createdAt else a.createdAt ≤ b.createdAt)
  let skip := (page - 1) * limit
  (⟨((sorted.drop skip).take limit, docs.length), false, true⟩, s)

end Feedback

/-- The per-post cache is coherent at `pid`: it holds nothing, or exactly
the stored document.  Before a mutation this says the cache entry, if any,
is the pre-mutation value; after it, that the entry was deleted or updated
to the new value. -/
def coherentAt (s : St) (pid : String) : Prop :=
  ∀ e, Kv.get s.postsCache pid = some e → Kv.get s.postsDb pid = some e

/-- The `postData` object built by `postController.createPost`
(`src/controllers/postController.js` 41–47): only `userId`, trimmed
`title` and `content`, `tags || []` and `media || []` are passed, so the
vote counts take the constructor defaults. -/
def Post.controllerData (userId title content : String)
    (tags media : Option (List String)) : Post.PostData :=
  { userId := userId
    title := strTrim title
    content := strTrim content
    tags := some (tags.getD [])
    media := some (media.getD []) }

/-- One write to the post collection through the `Post` data-access class,
with `create` receiving the controller-shaped `postData`. -/
inductive PostStep : St → St → Prop where
  | create (s : St) (userId title content : String) (tags media : Option (List String))
      (freshId : String) (now : Nat) :
      PostStep s (Post.create s (Post.controllerData userId title content tags media)
        freshId now).2
  | updatePost (s : St) (pid : String) (upd : Post.UpdateData) (now : Nat) :
      PostStep s (Post.updatePost s pid upd now).2
  | upvote (s : St) (pid : String) : PostStep s (Post.upvote s pid).2
  | downvote (s : St) (pid : String) : PostStep s (Post.downvote s pid).2
  | removeUpvote (s : St) (pid : String) : PostStep s (Post.removeUpvote s pid).2
  | removeDownvote (s : St) (pid : String) : PostStep s (Post.removeDownvote s pid).2
  | incrementViewCount (s : St) (pid : String) :
      PostStep s (Post.incrementViewCount s pid).2
  | addComment (s : St) (pid cid : String) : PostStep s (Post.addComment s pid cid).2
  | removeComment (s : St) (pid : String) (cidO : Option String) :
      PostStep s (Post.removeComment s pid cidO).2
  | togglePin (s : St) (pid : String) : PostStep s (Post.togglePin s pid).2
  | toggleLock (s : St) (pid : String) : PostStep s (Post.toggleLock s pid).2
  | deletePost (s : St) (pid uid : String) : PostStep s (Post.deletePost s pid uid).2

/-- States reachable from the empty store by `Post` writes. -/
inductive PostReach : St → Prop where
  | empty : PostReach {}
  | step {s s2 : St} : PostReach s → PostStep s s2 → PostReach s2

/-- Non-negativity of the vote counters of every stored post. -/
def nonNegVotes (s : St) : Prop :=
  ∀ k d, Kv.get s.postsDb k = some d → 0 ≤ d.upvotes ∧ 0 ≤ d.downvotes

/-- One write to the vote collection through the `Vote` data-access
class. -/
inductive VoteStep : St → St → Prop where
  | handleUpvote (s : St) (postId userId : String) (now : Nat) :
      VoteStep s (Vote.handleUpvote s postId userId now).2
  | handleDownvote (s : St) (postId userId : String) (now : Nat) :
      VoteStep s (Vote.handleDownvote s postId userId now).2
  | removeVote (s : St) (postId userId : String) :
      VoteStep s (Vote.removeVote s postId userId).2

/-- States reachable from the empty store by `Vote` operations. -/
inductive VoteReach : St → Prop where
  | empty : VoteReach {}
  | step {s s2 : St} : VoteReach s → VoteStep s s2 → VoteReach s2

/-- Well-formedness of the vote collection: document keys are unique, each
document sits under its own composite `voteId = postId_userId`, and the
vote value is in `{-1, 0, 1}`. -/
def voteWellFormed (s : St) : Prop :=
  (s.votesDb.map Prod.fst).Nodup ∧
  ∀ k v, Kv.get s.votesDb k = some v →
    k = v.voteId ∧ v.voteId = Vote.getVoteKey v.postId v.userId ∧
    (v.vote = -1 ∨ v.vote = 0 ∨ v.vote = 1)

/-- The ids of the live (non-soft-deleted) comments referencing post
`pid`. -/
def liveCommentIdsForPost (s : St) (pid : String) : List String :=
  (s.commentsDb.filter (fun p => p.2.postId = pid && !p.2.isDeleted)).map
    (fun p => p.2.commentId)

/-- The ids of the live (non-soft-deleted) comments written by user
`uid`. -/
def liveCommentIdsForUser (s : St) (uid : String) : List String :=
  (s.commentsDb.filter (fun p => p.2.userId = uid && !p.2.isDeleted)).map
    (fun p => p.2.commentId)

/-- A sample post document. -/
def samplePost : PostDoc where
  postId := "p1"
  userId := "u1"
  title := "Hello World"
  content := "Some interesting content"
  tags := ["lean"]
  upvotes := 2
  downvotes := 1
  commentIds := ["c1"]
  createdAt := 5
  updatedAt := 6
  isPinned := false
  isLocked := false
  viewCount := 3
  media := []

/-- A sample user document. -/
def sampleUser : UserDoc where
  userId := "u1"
  name := "Ada"
  gmailId := "ada@gmail.test"
  joinDate := 1
  avatarLink := none
  postIds := ["p1"]
  commentIds := ["c1"]
  role := "user"

/-- A sample comment document. -/
def sampleComment : CommentDoc where
  commentId := "c1"
  postId := "p1"
  userId := "u1"
  content := "Nice"
  parentCommentId := none
  upvotes := 0
  downvotes := 0
  createdAt := 7
  updatedAt := 7
  isEdited := false
  isDeleted := false

/-- A sample state: one post, one user, one comment, all caches empty. -/
def sampleSt : St where
  postsDb := [("p1", samplePost)]
  usersDb := [("u1", sampleUser)]
  commentsDb := [("c1", sampleComment)]

/-- The sample state with every document also present in its cache. -/
def sampleStCached : St :=
  { sampleSt with
    postsCache := [("p1", samplePost)]
    usersCache := [("u1", sampleUser)]
    commentsCache := [("c1", sampleComment)] }

/-- A base state for the comment-lifecycle traces: one post and one user,
both without comments. -/
def c1Base : St where
  postsDb := [("p1", { samplePost with commentIds := [] })]
  usersDb := [("u1", { sampleUser with commentIds := [] })]

/-- `c1Base` after a fully successful `Comment.create`. -/
def c1AfterCreate : St :=
  (Comment.create c1Base { postId := "p1", userId := "u1", content := "hey" }
    "c1" 20 true true).2

/-- `c1AfterCreate` after a completed `Comment.softDeleteComment`. -/
def c1AfterSoftDelete : St :=
  (Comment.softDeleteComment c1AfterCreate "c1" 21).2

/-! ## Concrete sample data (used by witnesses and counterexamples) -/

/-- The state after a `Comment.create` execution on `sampleSt` in which
the fire-and-forget `Post.addComment` promise is rejected. -/
def afterCreateNoPost : St :=
  (Comment.create sampleSt
    { postId := "p1", userId := "u1", content := "hi" } "c2" 10 true false).2

/-- The state after a `Comment.create` execution on `sampleSt` in which
the fire-and-forget `User.addComment` promise is rejected. -/
def afterCreateNoUser : St :=
  (Comment.create sampleSt
    { postId := "p1", userId := "u1", content := "hi" } "c2" 10 false true).2

/-- Ten distinct texts sharing the word-prefix `app`, used to crowd a
prefix-tree bucket. -/
def c10Texts : List String :=
  ["applea", "appleb", "applec", "appled", "applee",
   "applef", "appleg", "appleh", "applei", "applej"]

/-- A tree in which the `app` bucket holds ten distinct texts whose
scores were boosted to 2 by `incrementScore` (as `rediscon.js` does on
repeated selections). -/
def c10Crowded : PrefixTree.Tree Unit :=
  c10Texts.foldl (fun t x => PrefixTree.incrementScore t x 1)
    (c10Texts.foldl (fun t x => PrefixTree.add t x () 0) [])

/-- The crowded tree right after `add("applezz")`: the fresh score-1
entry ranks below the ten boosted ones. -/
def c10Tree : PrefixTree.Tree Unit :=
  PrefixTree.add c10Crowded "applezz" () 1

/-! ## Generic store lemmas -/

theorem Kv.get_set_self [DecidableEq α] (l : List (String × α)) (k : String) (v : α) :
    Kv.get (Kv.set l k v) k = some v := by
  induction l with
  | nil => simp [Kv.get, Kv.set]
  | cons p rest ih =>
      by_cases h : p.1 = k
      · simp [Kv.set, Kv.get, h]
      · simpa [Kv.set, Kv.get, h] using ih

theorem Kv.get_set_ne [DecidableEq α] (l : List (String × α)) (k k' : String) (v : α)
    (h : k ≠ k') : Kv.get (Kv.set l k v) k' = Kv.get l k' := by
  induction l with
  | nil => simp [Kv.get, Kv.set, h]
  | cons p rest ih =>
      by_cases hp : p.1 = k
      · simp [Kv.set, Kv.get, hp, h]
      · simp [Kv.set, Kv.get, hp, ih]

theorem Kv.get_del_self (l : List (String × α)) (k : String) :
    Kv.get (Kv.del l k) k = none := by
  induction l with
  | nil => simp [Kv.get, Kv.del]
  | cons p rest ih =>
      obtain ⟨k1, v1⟩ := p
      by_cases hp : k1 = k
      · simpa [Kv.del, Kv.get, hp] using ih
      · simpa [Kv.del, Kv.get, hp] using ih

theorem Kv.get_del_ne (l : List (String × α)) (k k' : String) (h : k ≠ k') :
    Kv.get (Kv.del l k) k' = Kv.get l k' := by
  induction l with
  | nil => simp [Kv.get, Kv.del]
  | cons p rest ih =>
      obtain ⟨k1, v1⟩ := p
      have h' : ¬ k' = k := fun e => h e.symm
      by_cases hp : k1 = k
      · simp [Kv.del, Kv.get, hp, h, ih]
      · by_cases hk : k1 = k'
        · simp [Kv.del, Kv.get, hp, hk, h']
        · simp [Kv.del, Kv.get, hp, hk, ih]

theorem Kv.get_update_self (l : List (String × α)) (k : String) (f : α → α) :
    Kv.get (Kv.update l k f) k = (Kv.get l k).map f := by
  induction l with
  | nil => simp [Kv.get, Kv.update]
  | cons p rest ih =>
      obtain ⟨k1, v1⟩ := p
      by_cases hp : k1 = k
      · simp [Kv.update, Kv.get, hp]
      · simp [Kv.update, Kv.get, hp, ih]

theorem Kv.get_update_ne (l : List (String × α)) (k k' : String) (f : α → α)
    (h : k ≠ k') : Kv.get (Kv.update l k f) k' = Kv.get l k' := by
  induction l with
  | nil => simp [Kv.get, Kv.update]
  | cons p rest ih =>
      obtain ⟨k1, v1⟩ := p
      by_cases hp : k1 = k
      · simp [Kv.update, Kv.get, hp, h, ih]
      · simp [Kv.update, Kv.get, hp, ih]

/-! ## C4 — cache-aside find-by-id reads -/

/-- **C4.** `Post.findByPostId`, `User.findByUserId` and
`Comment.findByCommentId` return the cached entity without querying the
database when a cache entry exists; on a miss they query the database
and, exactly when the entity is found there, write it back to the cache
and return it, returning `none` (and leaving the state unchanged)
otherwise. -/
theorem c4_find_by_id_cache_aside (s : St) (pid uid cid : String) :
    ((∀ p, Kv.get s.postsCache pid = some p →
        Post.findByPostId s pid = (⟨some p, true, false⟩, s)) ∧
     (Kv.get s.postsCache pid = none →
        (Post.findByPostId s pid).1.queriedDb = true ∧
        (∀ p, Kv.get s.postsDb pid = some p →
          (Post.findByPostId s pid).1.result = some p ∧
          Kv.get (Post.findByPostId s pid).2.postsCache pid = some p) ∧
        (Kv.get s.postsDb pid = none →
          Post.findByPostId s pid = (⟨none, true, true⟩, s)))) ∧
    ((∀ u, Kv.get s.usersCache uid = some u →
        User.findByUserId s uid = (⟨some u, true, false⟩, s)) ∧
     (Kv.get s.usersCache uid = none →
        (User.findByUserId s uid).1.queriedDb = true ∧
        (∀ u, Kv.get s.usersDb uid = some u →
          (User.findByUserId s uid).1.result = some u ∧
          Kv.get (User.findByUserId s uid).2.usersCache uid = some u) ∧
        (Kv.get s.usersDb uid = none →
          User.findByUserId s uid = (⟨none, true, true⟩, s)))) ∧
    ((∀ c, Kv.get s.commentsCache cid = some c →
        Comment.findByCommentId s cid = (⟨some c, true, false⟩, s)) ∧
     (Kv.get s.commentsCache cid = none →
        (Comment.findByCommentId s cid).1.queriedDb = true ∧
        (∀ c, Kv.get s.commentsDb cid = some c →
          (Comment.findByCommentId s cid).1.result = some c ∧
          Kv.get (Comment.findByCommentId s cid).2.commentsCache cid = some c) ∧
        (Kv.get s.commentsDb cid = none →
          Comment.findByCommentId s cid = (⟨none, true, true⟩, s)))) := by
  refine ⟨⟨?_, ?_⟩, ⟨?_, ?_⟩, ⟨?_, ?_⟩⟩
  · intro p hp
    simp [Post.findByPostId, hp]
  · intro hmiss
    refine ⟨?_, ?_, ?_⟩
    · cases hdb : Kv.get s.postsDb pid <;> simp [Post.findByPostId, hmiss, hdb]
    · intro p hdb
      simp [Post.findByPostId, hmiss, hdb, Kv.get_set_self]
    · intro hdb
      simp [Post.findByPostId, hmiss, hdb]
  · intro u hu
    simp [User.findByUserId, hu]
  · intro hmiss
    refine ⟨?_, ?_, ?_⟩
    · cases hdb : Kv.get s.usersDb uid <;> simp [User.findByUserId, hmiss, hdb]
    · intro u hdb
      simp [User.findByUserId, hmiss, hdb, Kv.get_set_self]
    · intro hdb
      simp [User.findByUserId, hmiss, hdb]
  · intro c hc
    simp [Comment.findByCommentId, hc]
  · intro hmiss
    refine ⟨?_, ?_, ?_⟩
    · cases hdb : Kv.get s.commentsDb cid <;> simp [Comment.findByCommentId, hmiss, hdb]
    · intro c hdb
      simp [Comment.findByCommentId, hmiss, hdb, Kv.get_set_self]
    · intro hdb
      simp [Comment.findByCommentId, hmiss, hdb]

/-- **C4 witness.** On the sample state (empty caches), a
`Post.findByPostId` miss queries the database, returns the stored post
and repopulates the cache. -/
theorem c4_find_by_id_cache_aside_witness :
    (Post.findByPostId sampleSt "p1").1.result = some samplePost ∧
    Kv.get (Post.findByPostId sampleSt "p1").2.postsCache "p1" = some samplePost :=
  ((c4_find_by_id_cache_aside sampleSt "p1" "u1" "c1").1.2 rfl).2.1 samplePost rfl

/-! ## C8 — `Post.updatePost` frame property -/

/-- `findByPostId` never writes to the post collection. -/
theorem Post.findByPostId_postsDb (s : St) (pid : String) :
    (Post.findByPostId s pid).2.postsDb = s.postsDb := by
  unfold Post.findByPostId
  cases hc : Kv.get s.postsCache pid
  · cases hdb : Kv.get s.postsDb pid <;> simp
  · simp

/-- The post collection after `Post.updatePost` is either untouched or the
result of the single `$set` on the target document. -/
theorem Post.updatePost_postsDb (s : St) (pid : String) (upd : Post.UpdateData)
    (now : Nat) :
    (Post.updatePost s pid upd now).2.postsDb = s.postsDb ∨
    (Post.updatePost s pid upd now).2.postsDb =
      Kv.update s.postsDb pid (Post.applyUpdate upd now) := by
  have h0 := Post.findByPostId_postsDb s pid
  have hm : ∀ l, (mongoUpdate l pid (Post.applyUpdate upd now)).1 = true →
      (mongoUpdate l pid (Post.applyUpdate upd now)).2 =
        Kv.update l pid (Post.applyUpdate upd now) := by
    intro l
    unfold mongoUpdate
    cases hg : Kv.get l pid
    · simp
    · rename_i d
      by_cases heq : Post.applyUpdate upd now d = d <;> simp [heq]
  have hm0 : ∀ l, (mongoUpdate l pid (Post.applyUpdate upd now)).1 = false →
      (mongoUpdate l pid (Post.applyUpdate upd now)).2 = l := by
    intro l
    unfold mongoUpdate
    cases hg : Kv.get l pid
    · simp
    · rename_i d
      by_cases heq : Post.applyUpdate upd now d = d <;> simp [heq]
  simp only [Post.updatePost]
  split
  · left; exact h0
  · split
    · left; exact h0
    · split
      · rename_i hmod
        split
        · right
          simpa [Post.findByPostId_postsDb, h0] using hm _ hmod
        · right
          simpa [Post.findByPostId_postsDb, h0] using hm _ hmod
      · rename_i hmod
        left
        have := hm0 (Post.findByPostId s pid).2.postsDb (by simpa using hmod)
        simpa [this] using h0

/-- **C8.** `Post.updatePost` changes at most the `title`, `content` and
`updatedAt` fields of the stored post document (every other field, and
every other document, is unchanged), and when the update data carries
neither a `title` nor a `content` field it returns `null` and leaves the
collection unmodified. -/
theorem c8_updatePost_frame (s : St) (pid : String) (upd : Post.UpdateData) (now : Nat) :
    (upd.title = none ∧ upd.content = none →
      (Post.updatePost s pid upd now).1 = none ∧
      (Post.updatePost s pid upd now).2.postsDb = s.postsDb) ∧
    (∀ d d', Kv.get s.postsDb pid = some d →
      Kv.get (Post.updatePost s pid upd now).2.postsDb pid = some d' →
      d'.postId = d.postId ∧ d'.userId = d.userId ∧ d'.tags = d.tags ∧
      d'.upvotes = d.upvotes ∧ d'.downvotes = d.downvotes ∧
      d'.commentIds = d.commentIds ∧ d'.createdAt = d.createdAt ∧
      d'.isPinned = d.isPinned ∧ d'.isLocked = d.isLocked ∧
      d'.viewCount = d.viewCount ∧ d'.media = d.media) ∧
    (∀ q, q ≠ pid →
      Kv.get (Post.updatePost s pid upd now).2.postsDb q = Kv.get s.postsDb q) := by
  have h0 := Post.findByPostId_postsDb s pid
  refine ⟨?_, ?_, ?_⟩
  · intro hnone
    constructor
    · unfold Post.updatePost
      cases hres : (Post.findByPostId s pid).1.result
      · simp [hres]
      · simp [hres, hnone]
    · unfold Post.updatePost
      cases hres : (Post.findByPostId s pid).1.result
      · simpa [hres] using h0
      · simpa [hres, hnone] using h0
  · intro d d' hd hd'
    rcases Post.updatePost_postsDb s pid upd now with h | h
    · rw [h, hd] at hd'
      cases hd'
      simp
    · rw [h, Kv.get_update_self, hd] at hd'
      have hd2 : Post.applyUpdate upd now d = d' := by simpa using hd'
      subst hd2
      simp [Post.applyUpdate]
  · intro q hq
    rcases Post.updatePost_postsDb s pid upd now with h | h
    · rw [h]
    · rw [h, Kv.get_update_ne _ _ _ _ (fun e => hq e.symm)]

/-- **C8 witness.** On the sample state, updating only the title yields a
stored document agreeing with the old one outside
title/content/updatedAt. -/
theorem c8_updatePost_frame_witness :
    ({ samplePost with title := "New", updatedAt := 9 } : PostDoc).upvotes = samplePost.upvotes :=
  ((c8_updatePost_frame sampleSt "p1" { title := some "New" } 9).2.1 samplePost
    { samplePost with title := "New", updatedAt := 9 } rfl (by rfl)).2.2.2.1

/-! ## C5 — denormalized copies drift on partial failure, no rollback -/

/-- **C5.** An execution in which `Comment.create`'s insert succeeds but a
fire-and-forget denormalized update fails: with `Post.addComment`
rejected, the comment document is stored while `post.commentIds` does not
contain the new id; with `User.addComment` rejected, the comment is stored
while `user.commentIds` does not contain it.  Nothing undoes the insert. -/
theorem c5_no_rollback_on_partial_failure :
    ((Kv.get (afterCreateNoPost).commentsDb "c2").isSome = true ∧
      Kv.get (afterCreateNoPost).postsDb "p1" = some samplePost ∧
      "c2" ∉ samplePost.commentIds) ∧
    ((Kv.get (afterCreateNoUser).commentsDb "c2").isSome = true ∧
      Kv.get (afterCreateNoUser).usersDb "u1" = some sampleUser ∧
      "c2" ∉ sampleUser.commentIds) := by
  constructor <;> refine ⟨by rfl, by rfl, by decide⟩

/-! ## C6 — not every read method checks the cache first -/

/-- **C6 counterexample.** `User.findByGmailId` performs no cache lookup
and queries the database even when the user is present in the cache:
the claim that every read method of the data-access classes checks the
cache before falling back to a database query is false. -/
theorem c6_counterexample_findByGmailId :
    (User.findByGmailId sampleStCached "ada@gmail.test").1.readCache = false ∧
    (User.findByGmailId sampleStCached "ada@gmail.test").1.queriedDb = true ∧
    Kv.get sampleStCached.usersCache "u1" = some sampleUser ∧
    (User.findByGmailId sampleStCached "ada@gmail.test").1.result = some sampleUser := by
  refine ⟨rfl, rfl, rfl, by rfl⟩

/-- **C6 (amended).** The find-by-id reads (`Post.findByPostId`,
`User.findByUserId`, `Comment.findByCommentId`, `Vote.findVote`) check the
cache before falling back to a database query (a hit skips the database),
but the other read methods do not all follow the pattern:
`User.findByGmailId`, `Feedback.getAllFeedback` and
`Vote.getVotesByUserId` query the database with no prior cache lookup. -/
theorem c6_read_paths (s : St) (pid uid cid gid : String) (page limit : Nat)
    (order : Int) :
    ((Post.findByPostId s pid).1.readCache = true ∧
      ∀ p, Kv.get s.postsCache pid = some p →
        (Post.findByPostId s pid).1.queriedDb = false) ∧
    ((User.findByUserId s uid).1.readCache = true ∧
      ∀ u, Kv.get s.usersCache uid = some u →
        (User.findByUserId s uid).1.queriedDb = false) ∧
    ((Comment.findByCommentId s cid).1.readCache = true ∧
      ∀ c, Kv.get s.commentsCache cid = some c →
        (Comment.findByCommentId s cid).1.queriedDb = false) ∧
    ((Vote.findVote s pid uid).1.readCache = true ∧
      ∀ v, Kv.get s.votesCache (Vote.getVoteKey pid uid) = some v →
        (Vote.findVote s pid uid).1.queriedDb = false) ∧
    ((User.findByGmailId s gid).1.readCache = false ∧
      (User.findByGmailId s gid).1.queriedDb = true) ∧
    ((Feedback.getAllFeedback s page limit order).1.readCache = false ∧
      (Feedback.getAllFeedback s page limit order).1.queriedDb = true) ∧
    ((Vote.getVotesByUserId s uid page limit).1.readCache = false ∧
      (Vote.getVotesByUserId s uid page limit).1.queriedDb = true) := by
  refine ⟨⟨?_, ?_⟩, ⟨?_, ?_⟩, ⟨?_, ?_⟩, ⟨?_, ?_⟩, ⟨rfl, rfl⟩, ⟨rfl, rfl⟩, ⟨rfl, rfl⟩⟩
  · unfold Post.findByPostId
    cases hc : Kv.get s.postsCache pid
    · cases hdb : Kv.get s.postsDb pid <;> simp
    · simp
  · intro p hp
    simp [Post.findByPostId, hp]
  · unfold User.findByUserId
    cases hc : Kv.get s.usersCache uid
    · cases hdb : Kv.get s.usersDb uid <;> simp
    · simp
  · intro u hu
    simp [User.findByUserId, hu]
  · unfold Comment.findByCommentId
    cases hc : Kv.get s.commentsCache cid
    · cases hdb : Kv.get s.commentsDb cid <;> simp
    · simp
  · intro c hc
    simp [Comment.findByCommentId, hc]
  · unfold Vote.findVote
    cases hc : Kv.get s.votesCache (Vote.getVoteKey pid uid)
    · cases hdb : Kv.get s.votesDb (Vote.getVoteKey pid uid) <;> simp [hc, hdb]
    · simp [hc]
  · intro v hv
    simp [Vote.findVote, hv]

/-- **C6 witness.** On the fully cached sample state, the cached post is
served without a database query, while `findByGmailId` still hits the
database. -/
theorem c6_read_paths_witness :
    (Post.findByPostId sampleStCached "p1").1.queriedDb = false :=
  (c6_read_paths sampleStCached "p1" "u1" "c1" "g" 1 10 (-1)).1.2 samplePost rfl

/-! ## C3 — write-through: mutations never leave a stale per-post cache
entry -/

/-- `Post.upvote` preserves per-post cache coherence. -/
theorem Post.upvote_coherentAt (s : St) (pid : String) (h : coherentAt s pid) :
    coherentAt (Post.upvote s pid).2 pid := by
  intro e
  unfold Post.upvote mongoUpdate
  cases hdb : Kv.get s.postsDb pid with
  | none => simpa [hdb] using h e
  | some d =>
      have heq : ¬ ({ d with upvotes := d.upvotes + 1 } : PostDoc) = d := by
        intro he
        have h2 := congrArg PostDoc.upvotes he
        simp at h2
      cases hc : Kv.get s.postsCache pid with
      | some cached =>
          have hcd : cached = d := by
            have h2 := h cached hc
            rw [hdb] at h2
            exact (Option.some.inj h2).symm
          subst hcd
          simp only [hdb, heq, hc, if_false, reduceIte]
          intro he
          rw [Kv.get_set_self] at he
          rw [Kv.get_update_self, hdb]
          simpa using (Option.some.inj he)
      | none =>
          simp only [hdb, heq, hc, if_false, reduceIte]
          cases hdb2 : Kv.get (Kv.update s.postsDb pid (fun p => { p with upvotes := p.upvotes + 1 })) pid with
          | none =>
              intro he
              rw [hc] at he
              cases he
          | some updated =>
              intro he
              rw [Kv.get_set_self] at he
              rw [hdb2]
              exact he

/-- `Post.downvote` preserves per-post cache coherence. -/
theorem Post.downvote_coherentAt (s : St) (pid : String) (h : coherentAt s pid) :
    coherentAt (Post.downvote s pid).2 pid := by
  intro e
  unfold Post.downvote mongoUpdate
  cases hdb : Kv.get s.postsDb pid with
  | none => simpa [hdb] using h e
  | some d =>
      have heq : ¬ ({ d with downvotes := d.downvotes + 1 } : PostDoc) = d := by
        intro he
        have h2 : d.downvotes + 1 = d.downvotes := congrArg PostDoc.downvotes he
        omega
      cases hc : Kv.get s.postsCache pid with
      | some cached =>
          have hcd : cached = d := by
            have h2 := h cached hc
            rw [hdb] at h2
            exact (Option.some.inj h2).symm
          subst hcd
          simp only [hdb, heq, hc, if_false, reduceIte]
          intro he
          rw [Kv.get_set_self] at he
          rw [Kv.get_update_self, hdb]
          simpa using (Option.some.inj he)
      | none =>
          simp only [hdb, heq, hc, if_false, reduceIte]
          cases hdb2 : Kv.get (Kv.update s.postsDb pid (fun p => { p with downvotes := p.downvotes + 1 })) pid with
          | none =>
              intro he
              rw [hc] at he
              cases he
          | some updated =>
              intro he
              rw [Kv.get_set_self] at he
              rw [hdb2]
              exact he

/-- `Post.incrementViewCount` preserves per-post cache coherence. -/
theorem Post.incrementViewCount_coherentAt (s : St) (pid : String)
    (h : coherentAt s pid) : coherentAt (Post.incrementViewCount s pid).2 pid := by
  intro e
  unfold Post.incrementViewCount mongoUpdate
  cases hdb : Kv.get s.postsDb pid with
  | none => simpa [hdb] using h e
  | some d =>
      have heq : ¬ ({ d with viewCount := d.viewCount + 1 } : PostDoc) = d := by
        intro he
        have h2 : d.viewCount + 1 = d.viewCount := congrArg PostDoc.viewCount he
        omega
      cases hc : Kv.get s.postsCache pid with
      | some cached =>
          have hcd : cached = d := by
            have h2 := h cached hc
            rw [hdb] at h2
            exact (Option.some.inj h2).symm
          subst hcd
          simp only [hdb, heq, hc, if_false, reduceIte]
          intro he
          rw [Kv.get_set_self] at he
          rw [Kv.get_update_self, hdb]
          simpa using (Option.some.inj he)
      | none =>
          simp only [hdb, heq, hc, if_false, reduceIte]
          intro he
          simp [hc] at he

/-- `Post.removeUpvote` preserves per-post cache coherence. -/
theorem Post.removeUpvote_coherentAt (s : St) (pid : String) (h : coherentAt s pid) :
    coherentAt (Post.removeUpvote s pid).2 pid := by
  intro e
  unfold Post.removeUpvote mongoUpdateIf
  cases hdb : Kv.get s.postsDb pid with
  | none => simpa [hdb] using h e
  | some d =>
      by_cases hpred : 0 < d.upvotes
      · have heq : ¬ ({ d with upvotes := d.upvotes - 1 } : PostDoc) = d := by
          intro he
          have h2 : d.upvotes - 1 = d.upvotes := congrArg PostDoc.upvotes he
          omega
        cases hc : Kv.get s.postsCache pid with
        | some cached =>
            have hcd : cached = d := by
              have h2 := h cached hc
              rw [hdb] at h2
              exact (Option.some.inj h2).symm
            subst hcd
            simp only [hdb, hpred, heq, hc, decide_True, decide_eq_true_eq, ite_true, ite_false, if_true, if_false, reduceIte]
            intro he
            rw [Kv.get_set_self] at he
            rw [Kv.get_update_self, hdb]
            simpa using (Option.some.inj he)
        | none =>
            simp only [hdb, hpred, heq, hc, decide_True, decide_eq_true_eq, ite_true, ite_false, if_true, if_false, reduceIte]
            cases hdb2 : Kv.get (Kv.update s.postsDb pid (fun p => { p with upvotes := p.upvotes - 1 })) pid with
            | none =>
                intro he
                rw [hc] at he
                cases he
            | some updated =>
                intro he
                rw [Kv.get_set_self] at he
                rw [hdb2]
                exact he
      · simp only [hdb, hpred, decide_True, decide_eq_true_eq, ite_true, ite_false, if_false, reduceIte]
        exact h e

/-- `Post.removeDownvote` preserves per-post cache coherence. -/
theorem Post.removeDownvote_coherentAt (s : St) (pid : String) (h : coherentAt s pid) :
    coherentAt (Post.removeDownvote s pid).2 pid := by
  intro e
  unfold Post.removeDownvote mongoUpdateIf
  cases hdb : Kv.get s.postsDb pid with
  | none => simpa [hdb] using h e
  | some d =>
      by_cases hpred : 0 < d.downvotes
      · have heq : ¬ ({ d with downvotes := d.downvotes - 1 } : PostDoc) = d := by
          intro he
          have h2 : d.downvotes - 1 = d.downvotes := congrArg PostDoc.downvotes he
          omega
        cases hc : Kv.get s.postsCache pid with
        | some cached =>
            have hcd : cached = d := by
              have h2 := h cached hc
              rw [hdb] at h2
              exact (Option.some.inj h2).symm
            subst hcd
            simp only [hdb, hpred, heq, hc, decide_True, decide_eq_true_eq, ite_true, ite_false, if_true, if_false, reduceIte]
            intro he
            rw [Kv.get_set_self] at he
            rw [Kv.get_update_self, hdb]
            simpa using (Option.some.inj he)
        | none =>
            simp only [hdb, hpred, heq, hc, decide_True, decide_eq_true_eq, ite_true, ite_false, if_true, if_false, reduceIte]
            cases hdb2 : Kv.get (Kv.update s.postsDb pid (fun p => { p with downvotes := p.downvotes - 1 })) pid with
            | none =>
                intro he
                rw [hc] at he
                cases he
            | some updated =>
                intro he
                rw [Kv.get_set_self] at he
                rw [hdb2]
                exact he
      · simp only [hdb, hpred, decide_True, decide_eq_true_eq, ite_true, ite_false, if_false, reduceIte]
        exact h e

/-- `Post.addComment` preserves per-post cache coherence. -/
theorem Post.addComment_coherentAt (s : St) (pid cid : String) (h : coherentAt s pid) :
    coherentAt (Post.addComment s pid cid).2 pid := by
  intro e
  unfold Post.addComment mongoUpdate
  cases hdb : Kv.get s.postsDb pid with
  | none => simpa [hdb] using h e
  | some d =>
      by_cases hmem : cid ∈ d.commentIds
      · simp only [hdb, hmem, eq_self_iff_true, decide_True, decide_eq_true_eq, ite_true,
          ite_false, if_true, if_false, reduceIte]
        exact h e
      · have heq : ¬ ({ d with commentIds := d.commentIds ++ [cid] } : PostDoc) = d := by
          intro he
          have h2 : d.commentIds ++ [cid] = d.commentIds := congrArg PostDoc.commentIds he
          simpa using congrArg List.length h2
        cases hc : Kv.get s.postsCache pid with
        | some cached =>
            have hcd : cached = d := by
              have h2 := h cached hc
              rw [hdb] at h2
              exact (Option.some.inj h2).symm
            subst hcd
            simp only [hdb, hmem, heq, hc, decide_True, decide_eq_true_eq, ite_true,
              ite_false, if_true, if_false, reduceIte]
            intro he
            rw [Kv.get_set_self] at he
            rw [Kv.get_update_self, hdb]
            simpa [hmem] using (Option.some.inj he)
        | none =>
            simp only [hdb, hmem, heq, hc, decide_True, decide_eq_true_eq, ite_true,
              ite_false, if_true, if_false, reduceIte]
            intro he
            simp [hc] at he

/-- `Post.removeComment` preserves per-post cache coherence (assuming the
stored `commentIds` list has no duplicates, which `$addToSet` maintains;
with duplicates the `$pull` removes all occurrences while the cache splice
removes one). -/
theorem Post.removeComment_coherentAt (s : St) (pid : String) (cidO : Option String)
    (hn : ∀ d, Kv.get s.postsDb pid = some d → d.commentIds.Nodup)
    (h : coherentAt s pid) : coherentAt (Post.removeComment s pid cidO).2 pid := by
  intro e
  unfold Post.removeComment mongoUpdate
  cases hdb : Kv.get s.postsDb pid with
  | none => simpa [hdb] using h e
  | some d =>
      by_cases heq :
          ({ d with commentIds := d.commentIds.filter (fun x => some x ≠ cidO) } : PostDoc) = d
      · simp only [hdb, heq, eq_self_iff_true, decide_True, decide_eq_true_eq, ite_true,
          ite_false, if_true, if_false, reduceIte]
        exact h e
      · have hkind : ∃ cid, cidO = some cid := by
          cases cidO with
          | none =>
              exfalso
              apply heq
              have : d.commentIds.filter (fun x => some x ≠ (none : Option String)) = d.commentIds := by
                simp [List.filter_eq_self]
              simp [this]
          | some cid => exact ⟨cid, rfl⟩
        obtain ⟨cid, rfl⟩ := hkind
        cases hc : Kv.get s.postsCache pid with
        | some cached =>
            have hcd : cached = d := by
              have h2 := h cached hc
              rw [hdb] at h2
              exact (Option.some.inj h2).symm
            have hfun : d.commentIds.erase cid =
                d.commentIds.filter (fun x => some x ≠ some cid) := by
              rw [List.Nodup.erase_eq_filter (hn d hdb)]
              congr 1
              funext x
              simp only [bne, Option.some.injEq, ne_eq, decide_not]
              by_cases hxc : x = cid <;> simp [hxc]
            subst hcd
            simp only [hdb, heq, hc, decide_True, decide_eq_true_eq, ite_true,
              ite_false, if_true, if_false, reduceIte]
            intro he
            rw [Kv.get_set_self] at he
            rw [Kv.get_update_self, hdb]
            simpa [hfun] using (Option.some.inj he)
        | none =>
            simp only [hdb, heq, hc, decide_True, decide_eq_true_eq, ite_true,
              ite_false, if_true, if_false, reduceIte]
            intro he
            simp [hc] at he

/-- `Post.togglePin` preserves per-post cache coherence (the cache entry
is deleted). -/
theorem Post.togglePin_coherentAt (s : St) (pid : String) (h : coherentAt s pid) :
    coherentAt (Post.togglePin s pid).2 pid := by
  intro e
  unfold Post.togglePin mongoUpdate
  cases hdb : Kv.get s.postsDb pid with
  | none => exact h e
  | some post =>
      have heq : ¬ ({ post with isPinned := !post.isPinned } : PostDoc) = post := by
        intro he
        have h2 : (!post.isPinned) = post.isPinned := congrArg PostDoc.isPinned he
        cases hb : post.isPinned <;> rw [hb] at h2 <;> simp at h2
      simp only [hdb, heq, decide_True, decide_eq_true_eq, ite_true, ite_false,
        if_true, if_false, reduceIte]
      intro he
      rw [Kv.get_del_self] at he
      cases he

/-- `Post.toggleLock` preserves per-post cache coherence. -/
theorem Post.toggleLock_coherentAt (s : St) (pid : String) (h : coherentAt s pid) :
    coherentAt (Post.toggleLock s pid).2 pid := by
  intro e
  unfold Post.toggleLock mongoUpdate
  cases hdb : Kv.get s.postsDb pid with
  | none => exact h e
  | some post =>
      have heq : ¬ ({ post with isLocked := !post.isLocked } : PostDoc) = post := by
        intro he
        have h2 : (!post.isLocked) = post.isLocked := congrArg PostDoc.isLocked he
        cases hb : post.isLocked <;> rw [hb] at h2 <;> simp at h2
      simp only [hdb, heq, decide_True, decide_eq_true_eq, ite_true, ite_false,
        if_true, if_false, reduceIte]
      intro he
      rw [Kv.get_del_self] at he
      cases he

/-- A `mongoUpdate` reporting `modifiedCount = 0` leaves the collection
unchanged. -/
theorem mongoUpdate_snd_of_not_modified [DecidableEq α] (l : List (String × α))
    (k : String) (f : α → α) (h : (mongoUpdate l k f).1 = false) :
    (mongoUpdate l k f).2 = l := by
  unfold mongoUpdate at h ⊢
  cases hg : Kv.get l k
  · simp
  · rename_i d
    by_cases heq : f d = d
    · simp [heq]
    · rw [hg] at h
      simp [heq] at h

/-- `findByPostId` preserves per-post cache coherence (a repopulated entry
is the stored document). -/
theorem Post.findByPostId_coherentAt (s : St) (pid : String) (h : coherentAt s pid) :
    coherentAt (Post.findByPostId s pid).2 pid := by
  intro e
  unfold Post.findByPostId
  cases hc : Kv.get s.postsCache pid with
  | some p => exact h e
  | none =>
      cases hdb : Kv.get s.postsDb pid with
      | none => exact h e
      | some p =>
          intro he
          rw [Kv.get_set_self] at he
          rw [hdb]
          exact he

/-- `Post.updatePost` preserves per-post cache coherence. -/
theorem Post.updatePost_coherentAt (s : St) (pid : String) (upd : Post.UpdateData)
    (now : Nat) (h : coherentAt s pid) :
    coherentAt (Post.updatePost s pid upd now).2 pid := by
  have h1 := Post.findByPostId_coherentAt s pid h
  simp only [Post.updatePost]
  split
  · exact h1
  · split
    · exact h1
    · split
      · rename_i hmod
        have h2 : coherentAt
            { (Post.findByPostId s pid).2 with
              postsDb := (mongoUpdate (Post.findByPostId s pid).2.postsDb pid
                (Post.applyUpdate upd now)).2,
              postsCache := Kv.del (Post.findByPostId s pid).2.postsCache pid } pid := by
          intro e he
          rw [Kv.get_del_self] at he
          cases he
        split
        · exact Post.findByPostId_coherentAt _ pid h2
        · intro e he
          exact (Post.findByPostId_coherentAt _ pid h2) e he
      · rename_i hmod
        have hsame := mongoUpdate_snd_of_not_modified
          (Post.findByPostId s pid).2.postsDb pid (Post.applyUpdate upd now)
          (by simpa using hmod)
        intro e he
        have := h1 e (by simpa using he)
        simpa [hsame] using this

/-- `Post.deletePost` preserves per-post cache coherence (the cache entry
is deleted and no later step of the method re-creates it). -/
theorem Post.deletePost_coherentAt (s : St) (pid uid : String) (h : coherentAt s pid) :
    coherentAt (Post.deletePost s pid uid).2 pid := by
  intro e
  simp only [Post.deletePost]
  split
  · exact h e
  · intro he
    have hpc : ∀ s2 u p, (User.removePost s2 u p).2.postsCache = s2.postsCache := by
      intro s2 u p
      simp only [User.removePost]
      split <;> rfl
    simp only [Vote.deleteVotesByPostId, hpc] at he
    rw [Kv.get_del_self] at he
    cases he

/-- **C3.** Every post mutation that modifies the stored document leaves
the per-post cache entry deleted or equal to the post's new value: if the
cache entry (when present) held the pre-mutation document, then after
`updatePost`, `upvote`, `downvote`, `removeUpvote`, `removeDownvote`,
`incrementViewCount`, `addComment`, `removeComment`, `togglePin`,
`toggleLock` or `deletePost` it is absent or holds the document now
stored (for `removeComment`, assuming the stored `commentIds` has no
duplicates, which `$addToSet` maintains). -/
theorem c3_mutations_write_through (s : St) (pid cid uid : String)
    (cidO : Option String) (upd : Post.UpdateData) (now : Nat)
    (hn : ∀ d, Kv.get s.postsDb pid = some d → d.commentIds.Nodup)
    (h : coherentAt s pid) :
    coherentAt (Post.updatePost s pid upd now).2 pid ∧
    coherentAt (Post.upvote s pid).2 pid ∧
    coherentAt (Post.downvote s pid).2 pid ∧
    coherentAt (Post.removeUpvote s pid).2 pid ∧
    coherentAt (Post.removeDownvote s pid).2 pid ∧
    coherentAt (Post.incrementViewCount s pid).2 pid ∧
    coherentAt (Post.addComment s pid cid).2 pid ∧
    coherentAt (Post.removeComment s pid cidO).2 pid ∧
    coherentAt (Post.togglePin s pid).2 pid ∧
    coherentAt (Post.toggleLock s pid).2 pid ∧
    coherentAt (Post.deletePost s pid uid).2 pid :=
  ⟨Post.updatePost_coherentAt s pid upd now h,
   Post.upvote_coherentAt s pid h,
   Post.downvote_coherentAt s pid h,
   Post.removeUpvote_coherentAt s pid h,
   Post.removeDownvote_coherentAt s pid h,
   Post.incrementViewCount_coherentAt s pid h,
   Post.addComment_coherentAt s pid cid h,
   Post.removeComment_coherentAt s pid cidO hn h,
   Post.togglePin_coherentAt s pid h,
   Post.toggleLock_coherentAt s pid h,
   Post.deletePost_coherentAt s pid uid h⟩

/-- **C3 witness.** On the fully cached sample state (cache entry equal to
the stored post), upvoting leaves the cache coherent: the entry now holds
the incremented document. -/
theorem c3_mutations_write_through_witness :
    coherentAt (Post.upvote sampleStCached "p1").2 "p1" :=
  (c3_mutations_write_through sampleStCached "p1" "c9" "u1" (some "c1") {} 11
    (by
      intro d hd
      have hd2 : samplePost = d := Option.some.inj (by simpa [sampleStCached, sampleSt, Kv.get] using hd)
      rw [← hd2]
      decide)
    (by
      intro e he
      have he2 : samplePost = e := Option.some.inj (by simpa [sampleStCached, sampleSt, Kv.get] using he)
      rw [← he2]
      rfl)).2.1

/-! ## C9 — vote counters never go negative -/

theorem Kv.get_del_sub (l : List (String × α)) (k k' : String) (d : α)
    (h : Kv.get (Kv.del l k) k' = some d) : Kv.get l k' = some d := by
  by_cases hk : k = k'
  · subst hk
    rw [Kv.get_del_self] at h
    cases h
  · rwa [Kv.get_del_ne _ _ _ hk] at h

theorem Kv.get_update_cases (l : List (String × α)) (k : String) (f : α → α)
    (k' : String) (d : α) (h : Kv.get (Kv.update l k f) k' = some d) :
    (∃ d0, Kv.get l k = some d0 ∧ k = k' ∧ d = f d0) ∨ Kv.get l k' = some d := by
  by_cases hk : k = k'
  · subst hk
    rw [Kv.get_update_self] at h
    cases hg : Kv.get l k with
    | none => rw [hg] at h; cases h
    | some d0 =>
        rw [hg] at h
        exact Or.inl ⟨d0, rfl, rfl, (Option.some.inj h).symm⟩
  · rw [Kv.get_update_ne _ _ _ _ hk] at h
    exact Or.inr h

theorem Kv.get_append_single_cases (l : List (String × α)) (k k' : String) (v d : α)
    (h : Kv.get (l ++ [(k, v)]) k' = some d) :
    Kv.get l k' = some d ∨ (k = k' ∧ d = v) := by
  induction l with
  | nil =>
      simp only [List.nil_append, Kv.get] at h ⊢
      by_cases hk : k = k'
      · simp only [hk, if_true, reduceIte, eq_self_iff_true] at h
        exact Or.inr ⟨hk, (Option.some.inj h).symm⟩
      · simp [hk] at h
  | cons p rest ih =>
      obtain ⟨k1, v1⟩ := p
      by_cases h1 : k1 = k'
      · simp only [List.cons_append, Kv.get, h1, if_true, reduceIte] at h ⊢
        exact Or.inl h
      · simp only [List.cons_append, Kv.get, h1, if_false, reduceIte] at h ⊢
        exact ih h

theorem mongoUpdate_snd_cases [DecidableEq α] (l : List (String × α)) (k : String)
    (f : α → α) :
    (mongoUpdate l k f).2 = l ∨ (mongoUpdate l k f).2 = Kv.update l k f := by
  unfold mongoUpdate
  cases hg : Kv.get l k
  · simp
  · rename_i d
    by_cases heq : f d = d <;> simp [heq]

theorem mongoUpdateIf_snd_cases [DecidableEq α] (l : List (String × α)) (k : String)
    (pred : α → Bool) (f : α → α) :
    (mongoUpdateIf l k pred f).2 = l ∨
    (∃ d, Kv.get l k = some d ∧ pred d = true ∧
      (mongoUpdateIf l k pred f).2 = Kv.update l k f) := by
  unfold mongoUpdateIf
  cases hg : Kv.get l k
  · simp
  · rename_i d
    by_cases hp : pred d = true
    · by_cases heq : f d = d
      · simp [hp, heq]
      · refine Or.inr ⟨d, rfl, hp, ?_⟩
        simp [hp, heq]
    · simp [hp]

theorem mongoUpdateIf_snd_of_not_modified [DecidableEq α] (l : List (String × α))
    (k : String) (pred : α → Bool) (f : α → α)
    (h : (mongoUpdateIf l k pred f).1 = false) : (mongoUpdateIf l k pred f).2 = l := by
  unfold mongoUpdateIf at h ⊢
  cases hg : Kv.get l k
  · simp
  · rename_i d
    rw [hg] at h
    by_cases hp : pred d = true
    · by_cases heq : f d = d
      · simp [hp, heq]
      · simp [hp, heq] at h
    · simp [hp]

/-- The post collection after `Post.upvote` is exactly the `$inc` write. -/
theorem Post.upvote_postsDb (s : St) (pid : String) :
    (Post.upvote s pid).2.postsDb =
      (mongoUpdate s.postsDb pid (fun p => { p with upvotes := p.upvotes + 1 })).2 := by
  simp only [Post.upvote]
  split
  · split
    · rfl
    · split <;> rfl
  · rename_i hmod
    rw [mongoUpdate_snd_of_not_modified _ _ _ (by simpa using hmod)]

/-- The post collection after `Post.downvote` is exactly the `$inc` write. -/
theorem Post.downvote_postsDb (s : St) (pid : String) :
    (Post.downvote s pid).2.postsDb =
      (mongoUpdate s.postsDb pid (fun p => { p with downvotes := p.downvotes + 1 })).2 := by
  simp only [Post.downvote]
  split
  · split
    · rfl
    · split <;> rfl
  · rename_i hmod
    rw [mongoUpdate_snd_of_not_modified _ _ _ (by simpa using hmod)]

/-- The post collection after `Post.incrementViewCount`. -/
theorem Post.incrementViewCount_postsDb (s : St) (pid : String) :
    (Post.incrementViewCount s pid).2.postsDb =
      (mongoUpdate s.postsDb pid (fun p => { p with viewCount := p.viewCount + 1 })).2 := by
  simp only [Post.incrementViewCount]
  split
  · split <;> rfl
  · rename_i hmod
    rw [mongoUpdate_snd_of_not_modified _ _ _ (by simpa using hmod)]

/-- The post collection after `Post.addComment`. -/
theorem Post.addComment_postsDb (s : St) (pid cid : String) :
    (Post.addComment s pid cid).2.postsDb =
      (mongoUpdate s.postsDb pid (fun p =>
        if cid ∈ p.commentIds then p
        else { p with commentIds := p.commentIds ++ [cid] })).2 := by
  simp only [Post.addComment]
  split
  · split
    · split <;> rfl
    · rfl
  · rename_i hmod
    rw [mongoUpdate_snd_of_not_modified _ _ _ (by simpa using hmod)]

/-- The post collection after `Post.removeComment`. -/
theorem Post.removeComment_postsDb (s : St) (pid : String) (cidO : Option String) :
    (Post.removeComment s pid cidO).2.postsDb =
      (mongoUpdate s.postsDb pid (fun p =>
        { p with commentIds := p.commentIds.filter (fun x => some x ≠ cidO) })).2 := by
  simp only [Post.removeComment]
  split
  · split <;> rfl
  · rename_i hmod
    rw [mongoUpdate_snd_of_not_modified _ _ _ (by simpa using hmod)]

/-- The post collection after `Post.removeUpvote` is exactly the guarded
decrement. -/
theorem Post.removeUpvote_postsDb (s : St) (pid : String) :
    (Post.removeUpvote s pid).2.postsDb =
      (mongoUpdateIf s.postsDb pid (fun p => 0 < p.upvotes)
        (fun p => { p with upvotes := p.upvotes - 1 })).2 := by
  simp only [Post.removeUpvote]
  split
  · split
    · split <;> rfl
    · split <;> rfl
  · rename_i hmod
    rw [mongoUpdateIf_snd_of_not_modified _ _ _ _ (by simpa using hmod)]

/-- The post collection after `Post.removeDownvote`. -/
theorem Post.removeDownvote_postsDb (s : St) (pid : String) :
    (Post.removeDownvote s pid).2.postsDb =
      (mongoUpdateIf s.postsDb pid (fun p => 0 < p.downvotes)
        (fun p => { p with downvotes := p.downvotes - 1 })).2 := by
  simp only [Post.removeDownvote]
  split
  · split
    · split <;> rfl
    · split <;> rfl
  · rename_i hmod
    rw [mongoUpdateIf_snd_of_not_modified _ _ _ _ (by simpa using hmod)]

/-- `User.addPost` does not touch the post collection. -/
theorem User.addPost_postsDb (s : St) (u p : String) :
    (User.addPost s u p).2.postsDb = s.postsDb := by
  simp only [User.addPost]
  split <;> rfl

/-- `User.removePost` does not touch the post collection. -/
theorem User.removePost_postsDb (s : St) (u p : String) :
    (User.removePost s u p).2.postsDb = s.postsDb := by
  simp only [User.removePost]
  split <;> rfl

/-- The post collection after `Post.create`: unchanged on a duplicate-key
failure, otherwise the new document is appended. -/
theorem Post.create_postsDb (s : St) (d : Post.PostData) (freshId : String) (now : Nat) :
    (Post.create s d freshId now).2.postsDb = s.postsDb ∨
    (Post.create s d freshId now).2.postsDb =
      s.postsDb ++ [((Post.PostDoc.ofData d freshId now).postId,
        Post.PostDoc.ofData d freshId now)] := by
  simp only [Post.create]
  cases hins : Kv.insert s.postsDb (Post.PostDoc.ofData d freshId now).postId
      (Post.PostDoc.ofData d freshId now) with
  | none => left; rfl
  | some db =>
      right
      have hdb : db = s.postsDb ++ [((Post.PostDoc.ofData d freshId now).postId,
          Post.PostDoc.ofData d freshId now)] := by
        unfold Kv.insert at hins
        cases hg : Kv.get s.postsDb (Post.PostDoc.ofData d freshId now).postId
        · rw [hg] at hins
          exact (Option.some.inj hins).symm
        · rw [hg] at hins
          cases hins
      simp [User.addPost_postsDb, hdb]

/-- The post collection after `Post.deletePost`: unchanged when the post
is missing, otherwise the document is removed. -/
theorem Post.deletePost_postsDb (s : St) (pid uid : String) :
    (Post.deletePost s pid uid).2.postsDb = s.postsDb ∨
    (Post.deletePost s pid uid).2.postsDb = Kv.del s.postsDb pid := by
  simp only [Post.deletePost]
  split
  · left; rfl
  · right
    simp [Vote.deleteVotesByPostId, User.removePost_postsDb, Kv.delete]

/-- A `mongoUpdate` whose update function preserves non-negative counters
preserves the collection-wide invariant. -/
theorem nonNeg_mongoUpdate (l : List (String × PostDoc)) (k : String)
    (f : PostDoc → PostDoc)
    (hf : ∀ d, 0 ≤ d.upvotes ∧ 0 ≤ d.downvotes →
      0 ≤ (f d).upvotes ∧ 0 ≤ (f d).downvotes)
    (hl : ∀ k' d, Kv.get l k' = some d → 0 ≤ d.upvotes ∧ 0 ≤ d.downvotes) :
    ∀ k' d, Kv.get (mongoUpdate l k f).2 k' = some d →
      0 ≤ d.upvotes ∧ 0 ≤ d.downvotes := by
  intro k' d hd
  rcases mongoUpdate_snd_cases l k f with hc | hc
  · rw [hc] at hd; exact hl k' d hd
  · rw [hc] at hd
    rcases Kv.get_update_cases _ _ _ _ _ hd with ⟨d0, hd0, hk, rfl⟩ | hget
    · exact hf d0 (hl k d0 hd0)
    · exact hl k' d hget

/-- Like `nonNeg_mongoUpdate`, with the filter predicate available to the
update function (`removeUpvote` / `removeDownvote`). -/
theorem nonNeg_mongoUpdateIf (l : List (String × PostDoc)) (k : String)
    (pred : PostDoc → Bool) (f : PostDoc → PostDoc)
    (hf : ∀ d, 0 ≤ d.upvotes ∧ 0 ≤ d.downvotes → pred d = true →
      0 ≤ (f d).upvotes ∧ 0 ≤ (f d).downvotes)
    (hl : ∀ k' d, Kv.get l k' = some d → 0 ≤ d.upvotes ∧ 0 ≤ d.downvotes) :
    ∀ k' d, Kv.get (mongoUpdateIf l k pred f).2 k' = some d →
      0 ≤ d.upvotes ∧ 0 ≤ d.downvotes := by
  intro k' d hd
  rcases mongoUpdateIf_snd_cases l k pred f with hc | ⟨d1, hd1, hp, hc⟩
  · rw [hc] at hd; exact hl k' d hd
  · rw [hc] at hd
    rcases Kv.get_update_cases _ _ _ _ _ hd with ⟨d0, hd0, hk, rfl⟩ | hget
    · have hdd : d0 = d1 := by
        rw [hd0] at hd1
        exact Option.some.inj hd1
      subst hdd
      exact hf d0 (hl k d0 hd0) hp
    · exact hl k' d hget

/-- **C9.** In every state reachable from the empty store through the
`Post` write operations, all stored posts have non-negative `upvotes` and
`downvotes`: creation defaults the counters to 0, `upvote`/`downvote`
only increment, and `removeUpvote`/`removeDownvote` decrement only
documents whose counter is strictly positive. -/
theorem c9_vote_counters_nonneg (s : St) (h : PostReach s) : nonNegVotes s := by
  induction h with
  | empty =>
      intro k d hd
      simp [Kv.get] at hd
  | step hr hstep ih =>
      cases hstep with
      | create userId title content tags media freshId now =>
          intro k d hd
          rcases Post.create_postsDb _
              (Post.controllerData userId title content tags media) freshId now with hc | hc
          · rw [hc] at hd; exact ih k d hd
          · rw [hc] at hd
            rcases Kv.get_append_single_cases _ _ _ _ _ hd with hget | ⟨hk, rfl⟩
            · exact ih k d hget
            · constructor <;>
                simp [Post.PostDoc.ofData, Post.controllerData, jsOrInt]
      | updatePost pid upd now =>
          intro k d hd
          rcases Post.updatePost_postsDb _ pid upd now with hc | hc
          · rw [hc] at hd; exact ih k d hd
          · rw [hc] at hd
            rcases Kv.get_update_cases _ _ _ _ _ hd with ⟨d0, hd0, hk, rfl⟩ | hget
            · have h0 := ih pid d0 hd0
              exact ⟨by simpa [Post.applyUpdate] using h0.1,
                by simpa [Post.applyUpdate] using h0.2⟩
            · exact ih k d hget
      | upvote pid =>
          intro k d hd
          rw [Post.upvote_postsDb] at hd
          refine nonNeg_mongoUpdate _ _ _ ?_ ih k d hd
          intro d0 h0
          refine ⟨?_, ?_⟩ <;> simp <;> omega
      | downvote pid =>
          intro k d hd
          rw [Post.downvote_postsDb] at hd
          refine nonNeg_mongoUpdate _ _ _ ?_ ih k d hd
          intro d0 h0
          refine ⟨?_, ?_⟩ <;> simp <;> omega
      | removeUpvote pid =>
          intro k d hd
          rw [Post.removeUpvote_postsDb] at hd
          refine nonNeg_mongoUpdateIf _ _ _ _ ?_ ih k d hd
          intro d0 h0 hp
          have hpos : 0 < d0.upvotes := of_decide_eq_true hp
          refine ⟨?_, ?_⟩ <;> simp <;> omega
      | removeDownvote pid =>
          intro k d hd
          rw [Post.removeDownvote_postsDb] at hd
          refine nonNeg_mongoUpdateIf _ _ _ _ ?_ ih k d hd
          intro d0 h0 hp
          have hpos : 0 < d0.downvotes := of_decide_eq_true hp
          refine ⟨?_, ?_⟩ <;> simp <;> omega
      | incrementViewCount pid =>
          intro k d hd
          rw [Post.incrementViewCount_postsDb] at hd
          refine nonNeg_mongoUpdate _ _ _ ?_ ih k d hd
          intro d0 h0
          refine ⟨?_, ?_⟩ <;> simp <;> omega
      | addComment pid cid =>
          intro k d hd
          rw [Post.addComment_postsDb] at hd
          refine nonNeg_mongoUpdate _ _ _ ?_ ih k d hd
          intro d0 h0
          by_cases hmem : cid ∈ d0.commentIds <;>
            refine ⟨?_, ?_⟩ <;> simp [hmem] <;> omega
      | removeComment pid cidO =>
          intro k d hd
          rw [Post.removeComment_postsDb] at hd
          refine nonNeg_mongoUpdate _ _ _ ?_ ih k d hd
          intro d0 h0
          refine ⟨?_, ?_⟩ <;> simp <;> omega
      | togglePin pid =>
          intro k d hd
          simp only [Post.togglePin] at hd
          split at hd
          · exact ih k d hd
          · split at hd
            · refine nonNeg_mongoUpdate _ _ _ ?_ ih k d hd
              intro d0 h0
              refine ⟨?_, ?_⟩ <;> simp <;> omega
            · refine nonNeg_mongoUpdate _ _ _ ?_ ih k d hd
              intro d0 h0
              refine ⟨?_, ?_⟩ <;> simp <;> omega
      | toggleLock pid =>
          intro k d hd
          simp only [Post.toggleLock] at hd
          split at hd
          · exact ih k d hd
          · split at hd
            · refine nonNeg_mongoUpdate _ _ _ ?_ ih k d hd
              intro d0 h0
              refine ⟨?_, ?_⟩ <;> simp <;> omega
            · refine nonNeg_mongoUpdate _ _ _ ?_ ih k d hd
              intro d0 h0
              refine ⟨?_, ?_⟩ <;> simp <;> omega
      | deletePost pid uid =>
          intro k d hd
          rcases Post.deletePost_postsDb _ pid uid with hc | hc
          · rw [hc] at hd; exact ih k d hd
          · rw [hc] at hd
            exact ih k d (Kv.get_del_sub _ _ _ _ hd)

/-! ## C7 — vote documents: composite key and signed value -/

theorem Kv.update_keys (l : List (String × α)) (k : String) (f : α → α) :
    (Kv.update l k f).map Prod.fst = l.map Prod.fst := by
  induction l with
  | nil => rfl
  | cons p rest ih =>
      obtain ⟨k1, v1⟩ := p
      by_cases hp : k1 = k <;> simp [Kv.update, hp, ih]

theorem Kv.not_mem_keys_of_get_none (l : List (String × α)) (k : String)
    (h : Kv.get l k = none) : k ∉ l.map Prod.fst := by
  induction l with
  | nil => simp
  | cons p rest ih =>
      obtain ⟨k1, v1⟩ := p
      by_cases hp : k1 = k
      · simp [Kv.get, hp] at h
      · simp only [Kv.get, hp, if_false, reduceIte] at h
        simp [hp, ih h]
        intro he
        exact hp he.symm

theorem Kv.del_keys_sublist (l : List (String × α)) (k : String) :
    ((Kv.del l k).map Prod.fst).Sublist (l.map Prod.fst) := by
  induction l with
  | nil => simp [Kv.del]
  | cons p rest ih =>
      obtain ⟨k1, v1⟩ := p
      by_cases hp : k1 = k
      · simp only [Kv.del, hp, if_true, reduceIte]
        exact ih.cons k
      · simp only [Kv.del, hp, if_false, reduceIte, List.map_cons]
        exact ih.cons₂ k1

/-- `Post.upvote` does not touch the vote collection. -/
theorem Post.upvote_votesDb (s : St) (pid : String) :
    (Post.upvote s pid).2.votesDb = s.votesDb := by
  simp only [Post.upvote]
  split
  · split
    · rfl
    · split <;> rfl
  · rfl

/-- `Post.downvote` does not touch the vote collection. -/
theorem Post.downvote_votesDb (s : St) (pid : String) :
    (Post.downvote s pid).2.votesDb = s.votesDb := by
  simp only [Post.downvote]
  split
  · split
    · rfl
    · split <;> rfl
  · rfl

/-- `Post.removeUpvote` does not touch the vote collection. -/
theorem Post.removeUpvote_votesDb (s : St) (pid : String) :
    (Post.removeUpvote s pid).2.votesDb = s.votesDb := by
  simp only [Post.removeUpvote]
  split
  · split
    · split <;> rfl
    · split <;> rfl
  · rfl

/-- `Post.removeDownvote` does not touch the vote collection. -/
theorem Post.removeDownvote_votesDb (s : St) (pid : String) :
    (Post.removeDownvote s pid).2.votesDb = s.votesDb := by
  simp only [Post.removeDownvote]
  split
  · split
    · split <;> rfl
    · split <;> rfl
  · rfl

/-- `Vote.findVote` does not touch the vote collection. -/
theorem Vote.findVote_votesDb (s : St) (p u : String) :
    (Vote.findVote s p u).2.votesDb = s.votesDb := by
  unfold Vote.findVote
  cases hc : Kv.get s.votesCache (Vote.getVoteKey p u)
  · cases hdb : Kv.get s.votesDb (Vote.getVoteKey p u) <;> simp [hc, hdb]
  · simp [hc]

/-- The vote collection after `Vote.handleUpvote`: unchanged, or the fresh
upvote document appended under the composite key, or a `$set` of the vote
value to 0 or 1. -/
theorem Vote.handleUpvote_votesDb (s : St) (postId userId : String) (now : Nat) :
    (Vote.handleUpvote s postId userId now).2.votesDb = s.votesDb ∨
    (Kv.get s.votesDb (Vote.getVoteKey postId userId) = none ∧
      (Vote.handleUpvote s postId userId now).2.votesDb =
        s.votesDb ++ [(Vote.getVoteKey postId userId,
          { voteId := Vote.getVoteKey postId userId, postId := postId,
            userId := userId, vote := 1, createdAt := now, updatedAt := now })]) ∨
    (∃ w : Int, (w = 0 ∨ w = 1) ∧
      (Vote.handleUpvote s postId userId now).2.votesDb =
        (mongoUpdate s.votesDb (Vote.getVoteKey postId userId)
          (fun v => { v with vote := w, updatedAt := now })).2) := by
  have hf := Vote.findVote_votesDb s postId userId
  simp only [Vote.handleUpvote]
  split
  · split
    · rename_i hins
      left
      exact hf
    · rename_i db hins
      right; left
      rw [Post.upvote_votesDb]
      unfold Kv.insert at hins
      rw [hf] at hins
      cases hg : Kv.get s.votesDb (Vote.getVoteKey postId userId)
      · rw [hg] at hins
        exact ⟨rfl, (Option.some.inj hins).symm⟩
      · rw [hg] at hins
        cases hins
  · split
    · right; right
      refine ⟨0, Or.inl rfl, ?_⟩
      rw [Post.removeUpvote_votesDb, hf]
    · split
      · right; right
        refine ⟨1, Or.inr rfl, ?_⟩
        rw [Post.upvote_votesDb, Post.removeDownvote_votesDb, hf]
      · split
        · right; right
          refine ⟨1, Or.inr rfl, ?_⟩
          rw [Post.upvote_votesDb, hf]
        · left
          exact hf

/-- The vote collection after `Vote.handleDownvote`. -/
theorem Vote.handleDownvote_votesDb (s : St) (postId userId : String) (now : Nat) :
    (Vote.handleDownvote s postId userId now).2.votesDb = s.votesDb ∨
    (Kv.get s.votesDb (Vote.getVoteKey postId userId) = none ∧
      (Vote.handleDownvote s postId userId now).2.votesDb =
        s.votesDb ++ [(Vote.getVoteKey postId userId,
          { voteId := Vote.getVoteKey postId userId, postId := postId,
            userId := userId, vote := -1, createdAt := now, updatedAt := now })]) ∨
    (∃ w : Int, (w = 0 ∨ w = -1) ∧
      (Vote.handleDownvote s postId userId now).2.votesDb =
        (mongoUpdate s.votesDb (Vote.getVoteKey postId userId)
          (fun v => { v with vote := w, updatedAt := now })).2) := by
  have hf := Vote.findVote_votesDb s postId userId
  simp only [Vote.handleDownvote]
  split
  · split
    · left
      exact hf
    · rename_i db hins
      right; left
      rw [Post.downvote_votesDb]
      unfold Kv.insert at hins
      rw [hf] at hins
      cases hg : Kv.get s.votesDb (Vote.getVoteKey postId userId)
      · rw [hg] at hins
        exact ⟨rfl, (Option.some.inj hins).symm⟩
      · rw [hg] at hins
        cases hins
  · split
    · right; right
      refine ⟨0, Or.inl rfl, ?_⟩
      rw [Post.removeDownvote_votesDb, hf]
    · split
      · right; right
        refine ⟨-1, Or.inr rfl, ?_⟩
        rw [Post.downvote_votesDb, Post.removeUpvote_votesDb, hf]
      · split
        · right; right
          refine ⟨-1, Or.inr rfl, ?_⟩
          rw [Post.downvote_votesDb, hf]
        · left
          exact hf

/-- The vote collection after `Vote.removeVote`: unchanged or the document
deleted. -/
theorem Vote.removeVote_votesDb (s : St) (postId userId : String) :
    (Vote.removeVote s postId userId).2.votesDb = s.votesDb ∨
    (Vote.removeVote s postId userId).2.votesDb =
      Kv.del s.votesDb (Vote.getVoteKey postId userId) := by
  have hf := Vote.findVote_votesDb s postId userId
  simp only [Vote.removeVote]
  split
  · left; exact hf
  · split
    · left; exact hf
    · right
      split
      · rw [Post.removeUpvote_votesDb]
        simp only [Kv.delete]
        rw [hf]
      · split
        · rw [Post.removeDownvote_votesDb]
          simp only [Kv.delete]
          rw [hf]
        · simp only [Kv.delete]
          rw [hf]

/-- One `Vote` operation preserves vote-collection well-formedness. -/
theorem voteWellFormed_step {s s2 : St} (h : voteWellFormed s)
    (hst : VoteStep s s2) : voteWellFormed s2 := by
  have happend : ∀ (pid uid : String) (w : VoteDoc),
      Kv.get s.votesDb (Vote.getVoteKey pid uid) = none →
      w.voteId = Vote.getVoteKey pid uid → w.postId = pid → w.userId = uid →
      (w.vote = -1 ∨ w.vote = 0 ∨ w.vote = 1) →
      ((s.votesDb ++ [(Vote.getVoteKey pid uid, w)]).map Prod.fst).Nodup ∧
      ∀ k v, Kv.get (s.votesDb ++ [(Vote.getVoteKey pid uid, w)]) k = some v →
        k = v.voteId ∧ v.voteId = Vote.getVoteKey v.postId v.userId ∧
        (v.vote = -1 ∨ v.vote = 0 ∨ v.vote = 1) := by
    intro pid uid w hnone hw1 hw2 hw3 hw4
    constructor
    · rw [List.map_append]
      rw [List.nodup_append]
      refine ⟨h.1, by simp, ?_⟩
      intro x hx
      simp only [List.map_cons, List.map_nil, List.mem_singleton]
      intro he
      subst he
      exact (Kv.not_mem_keys_of_get_none _ _ hnone) hx
    · intro k v hv
      rcases Kv.get_append_single_cases _ _ _ _ _ hv with hg | ⟨hk, rfl⟩
      · exact h.2 k v hg
      · refine ⟨?_, ?_, hw4⟩
        · rw [← hk, hw1]
        · rw [hw1, hw2, hw3]
  have hupdate : ∀ (pid uid : String) (w : Int) (now : Nat),
      (w = -1 ∨ w = 0 ∨ w = 1) →
      (((mongoUpdate s.votesDb (Vote.getVoteKey pid uid)
          (fun v => { v with vote := w, updatedAt := now })).2).map Prod.fst).Nodup ∧
      ∀ k v, Kv.get (mongoUpdate s.votesDb (Vote.getVoteKey pid uid)
          (fun v => { v with vote := w, updatedAt := now })).2 k = some v →
        k = v.voteId ∧ v.voteId = Vote.getVoteKey v.postId v.userId ∧
        (v.vote = -1 ∨ v.vote = 0 ∨ v.vote = 1) := by
    intro pid uid w now hw
    rcases mongoUpdate_snd_cases s.votesDb (Vote.getVoteKey pid uid)
        (fun v => { v with vote := w, updatedAt := now }) with hc | hc
    · rw [hc]
      exact ⟨h.1, h.2⟩
    · rw [hc]
      constructor
      · rw [Kv.update_keys]
        exact h.1
      · intro k v hv
        rcases Kv.get_update_cases _ _ _ _ _ hv with ⟨d0, hd0, hkk, rfl⟩ | hg
        · obtain ⟨e1, e2, e3⟩ := h.2 _ d0 hd0
          refine ⟨?_, ?_, ?_⟩
          · rw [← hkk, e1]
          · simpa using e2
          · simpa using hw
        · exact h.2 k v hg
  have hdel : ∀ (key : String),
      ((Kv.del s.votesDb key).map Prod.fst).Nodup ∧
      ∀ k v, Kv.get (Kv.del s.votesDb key) k = some v →
        k = v.voteId ∧ v.voteId = Vote.getVoteKey v.postId v.userId ∧
        (v.vote = -1 ∨ v.vote = 0 ∨ v.vote = 1) := by
    intro key
    constructor
    · exact h.1.sublist (Kv.del_keys_sublist s.votesDb key)
    · intro k v hv
      exact h.2 k v (Kv.get_del_sub _ _ _ _ hv)
  cases hst with
  | handleUpvote postId userId now =>
      rcases Vote.handleUpvote_votesDb s postId userId now with hc | ⟨hnone, hc⟩ | ⟨w, hw, hc⟩
      · exact ⟨by rw [hc]; exact h.1, by intro k v hv; rw [hc] at hv; exact h.2 k v hv⟩
      · have := happend postId userId
          { voteId := Vote.getVoteKey postId userId, postId := postId, userId := userId,
            vote := 1, createdAt := now, updatedAt := now } hnone rfl rfl rfl
          (Or.inr (Or.inr rfl))
        exact ⟨by rw [hc]; exact this.1, by intro k v hv; rw [hc] at hv; exact this.2 k v hv⟩
      · have := hupdate postId userId w now
          (hw.elim (fun h0 => Or.inr (Or.inl h0)) (fun h1 => Or.inr (Or.inr h1)))
        exact ⟨by rw [hc]; exact this.1, by intro k v hv; rw [hc] at hv; exact this.2 k v hv⟩
  | handleDownvote postId userId now =>
      rcases Vote.handleDownvote_votesDb s postId userId now with hc | ⟨hnone, hc⟩ | ⟨w, hw, hc⟩
      · exact ⟨by rw [hc]; exact h.1, by intro k v hv; rw [hc] at hv; exact h.2 k v hv⟩
      · have := happend postId userId
          { voteId := Vote.getVoteKey postId userId, postId := postId, userId := userId,
            vote := -1, createdAt := now, updatedAt := now } hnone rfl rfl rfl
          (Or.inl rfl)
        exact ⟨by rw [hc]; exact this.1, by intro k v hv; rw [hc] at hv; exact this.2 k v hv⟩
      · have := hupdate postId userId w now
          (hw.elim (fun h0 => Or.inr (Or.inl h0)) (fun h1 => Or.inl h1))
        exact ⟨by rw [hc]; exact this.1, by intro k v hv; rw [hc] at hv; exact this.2 k v hv⟩
  | removeVote postId userId =>
      rcases Vote.removeVote_votesDb s postId userId with hc | hc
      · exact ⟨by rw [hc]; exact h.1, by intro k v hv; rw [hc] at hv; exact h.2 k v hv⟩
      · have := hdel (Vote.getVoteKey postId userId)
        exact ⟨by rw [hc]; exact this.1, by intro k v hv; rw [hc] at hv; exact this.2 k v hv⟩

/-- **C7.** In every state reachable through `Vote.handleUpvote`,
`Vote.handleDownvote` and `Vote.removeVote`, every stored vote document
sits under its composite key `voteId = postId_userId` (keys are unique, so
at most one vote exists per post-user pair) and carries a vote value in
`{-1, 0, 1}`. -/
theorem c7_vote_documents_well_formed (s : St) (h : VoteReach s) :
    voteWellFormed s := by
  induction h with
  | empty =>
      constructor
      · simp
      · intro k v hv
        simp [Kv.get] at hv
  | step hr hstep ih => exact voteWellFormed_step ih hstep

/-- **C7 witness.** The state reached by one upvote then one downvote
toggle from the empty store is reachable and its vote collection is
well-formed. -/
theorem c7_vote_documents_well_formed_witness :
    voteWellFormed (Vote.handleDownvote
      (Vote.handleUpvote ({} : St) "p1" "u1" 4).2 "p1" "u1" 5).2 :=
  c7_vote_documents_well_formed _
    (VoteReach.step
      (VoteReach.step VoteReach.empty (VoteStep.handleUpvote {} "p1" "u1" 4))
      (VoteStep.handleDownvote _ "p1" "u1" 5))

/-! ## C2 — fan-out of post writes across the three denormalized
structures -/

/-- `User.addPost` leaves the posts cache unchanged. -/
theorem User.addPost_postsCache (s : St) (u p : String) :
    (User.addPost s u p).2.postsCache = s.postsCache := by
  simp only [User.addPost]
  split <;> rfl

/-- `User.addPost` leaves the feed cache unchanged. -/
theorem User.addPost_feedCache (s : St) (u p : String) :
    (User.addPost s u p).2.feedCache = s.feedCache := by
  simp only [User.addPost]
  split <;> rfl

/-- `User.addPost` leaves the posts tree unchanged. -/
theorem User.addPost_postsTree (s : St) (u p : String) :
    (User.addPost s u p).2.postsTree = s.postsTree := by
  simp only [User.addPost]
  split <;> rfl

/-- `User.addPost` leaves the tags tree unchanged. -/
theorem User.addPost_tagsTree (s : St) (u p : String) :
    (User.addPost s u p).2.tagsTree = s.tagsTree := by
  simp only [User.addPost]
  split <;> rfl

/-- `User.removePost` leaves the posts cache unchanged. -/
theorem User.removePost_postsCache (s : St) (u p : String) :
    (User.removePost s u p).2.postsCache = s.postsCache := by
  simp only [User.removePost]
  split <;> rfl

/-- `User.removePost` leaves the feed cache unchanged. -/
theorem User.removePost_feedCache (s : St) (u p : String) :
    (User.removePost s u p).2.feedCache = s.feedCache := by
  simp only [User.removePost]
  split <;> rfl

/-- `User.removePost` leaves the posts tree unchanged. -/
theorem User.removePost_postsTree (s : St) (u p : String) :
    (User.removePost s u p).2.postsTree = s.postsTree := by
  simp only [User.removePost]
  split <;> rfl

/-- `User.removePost` leaves the tags tree unchanged. -/
theorem User.removePost_tagsTree (s : St) (u p : String) :
    (User.removePost s u p).2.tagsTree = s.tagsTree := by
  simp only [User.removePost]
  split <;> rfl

/-- `findByPostId` leaves the feed cache unchanged. -/
theorem Post.findByPostId_feedCache (s : St) (pid : String) :
    (Post.findByPostId s pid).2.feedCache = s.feedCache := by
  unfold Post.findByPostId
  cases hc : Kv.get s.postsCache pid
  · cases hdb : Kv.get s.postsDb pid <;> rfl
  · rfl

/-- `findByPostId` leaves the posts tree unchanged. -/
theorem Post.findByPostId_postsTree (s : St) (pid : String) :
    (Post.findByPostId s pid).2.postsTree = s.postsTree := by
  unfold Post.findByPostId
  cases hc : Kv.get s.postsCache pid
  · cases hdb : Kv.get s.postsDb pid <;> rfl
  · rfl

/-- `findByPostId` leaves the tags tree unchanged. -/
theorem Post.findByPostId_tagsTree (s : St) (pid : String) :
    (Post.findByPostId s pid).2.tagsTree = s.tagsTree := by
  unfold Post.findByPostId
  cases hc : Kv.get s.postsCache pid
  · cases hdb : Kv.get s.postsDb pid <;> rfl
  · rfl

/-- `Post.upvote` touches only the post collection and per-post cache:
the feed lists, cached totals and prefix trees are untouched. -/
theorem Post.upvote_frame (s : St) (pid : String) :
    (Post.upvote s pid).2.feedCache = s.feedCache ∧
    (Post.upvote s pid).2.feedTotals = s.feedTotals ∧
    (Post.upvote s pid).2.postsTree = s.postsTree ∧
    (Post.upvote s pid).2.tagsTree = s.tagsTree := by
  simp only [Post.upvote]
  split
  · split
    · exact ⟨rfl, rfl, rfl, rfl⟩
    · split <;> exact ⟨rfl, rfl, rfl, rfl⟩
  · exact ⟨rfl, rfl, rfl, rfl⟩

/-- `Post.downvote` touches only the post collection and per-post
cache. -/
theorem Post.downvote_frame (s : St) (pid : String) :
    (Post.downvote s pid).2.feedCache = s.feedCache ∧
    (Post.downvote s pid).2.feedTotals = s.feedTotals ∧
    (Post.downvote s pid).2.postsTree = s.postsTree ∧
    (Post.downvote s pid).2.tagsTree = s.tagsTree := by
  simp only [Post.downvote]
  split
  · split
    · exact ⟨rfl, rfl, rfl, rfl⟩
    · split <;> exact ⟨rfl, rfl, rfl, rfl⟩
  · exact ⟨rfl, rfl, rfl, rfl⟩

/-- After a cache-miss `findByPostId` that found the document, the cache
holds it. -/
theorem Post.findByPostId_cache_after_miss (s : St) (pid : String) (x : PostDoc)
    (hc : Kv.get s.postsCache pid = none)
    (hr : (Post.findByPostId s pid).1.result = some x) :
    Kv.get (Post.findByPostId s pid).2.postsCache pid = some x := by
  unfold Post.findByPostId at hr ⊢
  cases hdb : Kv.get s.postsDb pid
  · simp [hc, hdb] at hr
  · simp only [hc, hdb] at hr ⊢
    rw [Kv.get_set_self]
    simpa using hr

/-- **C2 counterexample.** `Post.upvote` modifies the stored post but
performs no feed-cache and no prefix-index operation: the `upvotes:desc`
feed list and the prefix trees are bit-for-bit unchanged, so not every
post write fans out updates to all three denormalized structures. -/
theorem c2_counterexample_upvote_no_fanout :
    (Post.upvote sampleStCached "p1").2.postsDb ≠ sampleStCached.postsDb ∧
    (Post.upvote sampleStCached "p1").2.feedCache = sampleStCached.feedCache ∧
    (Post.upvote sampleStCached "p1").2.postsTree = sampleStCached.postsTree ∧
    (Post.upvote sampleStCached "p1").2.tagsTree = sampleStCached.tagsTree := by
  refine ⟨by decide, rfl, rfl, rfl⟩

/-- **C2 (amended).** `Post.create` and `Post.deletePost` fan out to all
three denormalized structures (per-post cache, feed list cache, prefix
index); `Post.updatePost` updates the per-post cache and the prefix index
but never touches the feed list cache; `Post.upvote` and `Post.downvote`
update only the per-post cache, leaving the feed lists and the prefix
trees unchanged. -/
theorem c2_write_fanout (s : St) (d : Post.PostData) (fid : String) (now : Nat)
    (pid uid : String) (upd : Post.UpdateData) :
    (∀ p st, Post.create s d fid now = (some p, st) →
      Kv.get st.postsCache p.postId = some p ∧
      st.feedCache = Feed.trim (Feed.pushFront s.feedCache
        (Post.getFeedCacheKey "createdAt" (-1)) p.postId)
        (Post.getFeedCacheKey "createdAt" (-1)) 0 49 ∧
      st.postsTree = (PrefixSearchService.indexPost s.postsTree s.tagsTree p now).1 ∧
      st.tagsTree = (PrefixSearchService.indexPost s.postsTree s.tagsTree p now).2) ∧
    (∀ post, Kv.get s.postsDb pid = some post →
      Kv.get (Post.deletePost s pid uid).2.postsCache pid = none ∧
      (Post.deletePost s pid uid).2.feedCache =
        Feed.remove (Feed.remove (Feed.remove s.feedCache
          (Post.getFeedCacheKey "createdAt" (-1)) pid)
          (Post.getFeedCacheKey "createdAt" 1) pid)
          (Post.getFeedCacheKey "upvotes" (-1)) pid ∧
      (Post.deletePost s pid uid).2.postsTree =
        (PrefixSearchService.removePostIndex s.postsTree s.tagsTree post).1 ∧
      (Post.deletePost s pid uid).2.tagsTree =
        (PrefixSearchService.removePostIndex s.postsTree s.tagsTree post).2) ∧
    ((Post.updatePost s pid upd now).2.feedCache = s.feedCache ∧
     ∀ p st, Post.updatePost s pid upd now = (some p, st) →
       Kv.get st.postsCache pid = some p ∧
       ∃ oldPost, (Post.findByPostId s pid).1.result = some oldPost ∧
         st.postsTree =
           (PrefixSearchService.updatePostIndex s.postsTree s.tagsTree oldPost p now).1 ∧
         st.tagsTree =
           (PrefixSearchService.updatePostIndex s.postsTree s.tagsTree oldPost p now).2) ∧
    ((Post.upvote s pid).2.feedCache = s.feedCache ∧
     (Post.upvote s pid).2.postsTree = s.postsTree ∧
     (Post.upvote s pid).2.tagsTree = s.tagsTree) ∧
    ((Post.downvote s pid).2.feedCache = s.feedCache ∧
     (Post.downvote s pid).2.postsTree = s.postsTree ∧
     (Post.downvote s pid).2.tagsTree = s.tagsTree) := by
  refine ⟨?_, ?_, ⟨?_, ?_⟩,
    ⟨(Post.upvote_frame s pid).1, (Post.upvote_frame s pid).2.2.1,
      (Post.upvote_frame s pid).2.2.2⟩,
    ⟨(Post.downvote_frame s pid).1, (Post.downvote_frame s pid).2.2.1,
      (Post.downvote_frame s pid).2.2.2⟩⟩
  · intro p st h
    simp only [Post.create] at h
    split at h
    · exact absurd (congrArg Prod.fst h) (by simp)
    · simp only [Prod.mk.injEq, Option.some.injEq] at h
      obtain ⟨hp, h2⟩ := h
      subst hp
      subst h2
      refine ⟨?_, ?_, ?_, ?_⟩
      · simp [User.addPost_postsCache, Kv.get_set_self]
      · simp [User.addPost_feedCache]
      · simp [User.addPost_postsTree, User.addPost_tagsTree]
      · simp [User.addPost_postsTree, User.addPost_tagsTree]
  · intro post hpost
    simp only [Post.deletePost, hpost]
    refine ⟨?_, ?_, ?_, ?_⟩
    · simp [Vote.deleteVotesByPostId, User.removePost_postsCache, Kv.get_del_self]
    · simp [Vote.deleteVotesByPostId, User.removePost_feedCache]
    · simp [Vote.deleteVotesByPostId, User.removePost_postsTree, User.removePost_tagsTree]
    · simp [Vote.deleteVotesByPostId, User.removePost_postsTree, User.removePost_tagsTree]
  · simp only [Post.updatePost]
    split
    · exact Post.findByPostId_feedCache s pid
    · split
      · exact Post.findByPostId_feedCache s pid
      · split
        · split
          · simp [Post.findByPostId_feedCache]
          · simp [Post.findByPostId_feedCache]
        · exact Post.findByPostId_feedCache s pid
  · intro p st h
    simp only [Post.updatePost] at h
    split at h
    · exact absurd (congrArg Prod.fst h) (by simp)
    · rename_i oldPost hold
      split at h
      · exact absurd (congrArg Prod.fst h) (by simp)
      · split at h
        · rename_i hmod
          split at h
          · exact absurd (congrArg Prod.fst h) (by simp)
          · rename_i newPost hnew
            simp only [Prod.mk.injEq, Option.some.injEq] at h
            obtain ⟨hp, h2⟩ := h
            subst hp
            subst h2
            refine ⟨?_, oldPost, hold, ?_, ?_⟩
            · simpa using Post.findByPostId_cache_after_miss _ pid newPost
                (Kv.get_del_self _ _) hnew
            · simp [Post.findByPostId_postsTree, Post.findByPostId_tagsTree]
            · simp [Post.findByPostId_postsTree, Post.findByPostId_tagsTree]
        · exact absurd (congrArg Prod.fst h) (by simp)

/-- **C2 witness.** Deleting the sample post invalidates its per-post
cache entry (one leg of the delete fan-out, with the stored-post
hypothesis discharged on the sample state). -/
theorem c2_write_fanout_witness :
    Kv.get (Post.deletePost sampleSt "p1" "u1").2.postsCache "p1" = none :=
  ((c2_write_fanout sampleSt { userId := "u1", title := "t", content := "c" }
    "px" 0 "p1" "u1" {}).2.1 samplePost rfl).1

/-- **C9 witness.** The state reached by creating one post and removing an
upvote from it is reachable, and its vote counters are non-negative. -/
theorem c9_vote_counters_nonneg_witness :
    nonNegVotes (Post.removeUpvote
      (Post.create ({} : St)
        (Post.controllerData "u1" "A title" "Some content here" none none) "p1" 3).2
      "p1").2 :=
  c9_vote_counters_nonneg _
    (PostReach.step
      (PostReach.step PostReach.empty
        (PostStep.create {} "u1" "A title" "Some content here" none none "p1" 3))
      (PostStep.removeUpvote _ "p1"))

/-! ## C1 — `post.commentIds` / `user.commentIds` versus live comments -/

theorem Kv.get_append_single_self (l : List (String × α)) (k : String) (v : α)
    (h : Kv.get l k = none) : Kv.get (l ++ [(k, v)]) k = some v := by
  induction l with
  | nil => simp [Kv.get]
  | cons p rest ih =>
      obtain ⟨k1, v1⟩ := p
      by_cases h1 : k1 = k
      · simp [Kv.get, h1] at h
      · simp only [Kv.get, h1, if_false, reduceIte] at h
        simp only [List.cons_append, Kv.get, h1, if_false, reduceIte]
        exact ih h

theorem Kv.mem_of_get (l : List (String × α)) (k : String) (v : α)
    (h : Kv.get l k = some v) : (k, v) ∈ l := by
  induction l with
  | nil => simp [Kv.get] at h
  | cons p rest ih =>
      obtain ⟨k1, v1⟩ := p
      by_cases h1 : k1 = k
      · simp only [Kv.get, h1, if_true, reduceIte] at h
        simp [h1, ← Option.some.inj h]
      · simp only [Kv.get, h1, if_false, reduceIte] at h
        simp [ih h]

theorem Kv.get_filter_nodup (l : List (String × α)) (pred : String × α → Bool)
    (k : String) (v : α) (hnd : (l.map Prod.fst).Nodup)
    (h : Kv.get (l.filter pred) k = some v) : Kv.get l k = some v := by
  induction l with
  | nil => simp [Kv.get] at h
  | cons p rest ih =>
      obtain ⟨k1, v1⟩ := p
      simp only [List.map_cons, List.nodup_cons] at hnd
      by_cases h1 : k1 = k
      · subst h1
        cases hp : pred (k1, v1)
        · rw [List.filter_cons_of_neg (by simp [hp])] at h
          have hmem := Kv.mem_of_get _ _ _ (ih hnd.2 h)
          exact absurd (List.mem_map_of_mem Prod.fst hmem) hnd.1
        · rw [List.filter_cons_of_pos (by simp [hp])] at h
          simp only [Kv.get, if_true, reduceIte] at h ⊢
          exact h
      · cases hp : pred (k1, v1)
        · rw [List.filter_cons_of_neg (by simp [hp])] at h
          simp only [Kv.get, h1, if_false, reduceIte]
          exact ih hnd.2 h
        · rw [List.filter_cons_of_pos (by simp [hp])] at h
          simp only [Kv.get, h1, if_false, reduceIte] at h ⊢
          exact ih hnd.2 h

/-- `User.addComment` does not touch the post collection. -/
theorem User.addComment_postsDb_frame (s : St) (u c : String) :
    (User.addComment s u c).2.postsDb = s.postsDb := by
  simp only [User.addComment]
  split <;> rfl

/-- `User.addComment` does not touch the comment collection. -/
theorem User.addComment_commentsDb_frame (s : St) (u c : String) :
    (User.addComment s u c).2.commentsDb = s.commentsDb := by
  simp only [User.addComment]
  split <;> rfl

/-- `Post.addComment` does not touch the user collection. -/
theorem Post.addComment_usersDb (s : St) (p c : String) :
    (Post.addComment s p c).2.usersDb = s.usersDb := by
  simp only [Post.addComment]
  split
  · split
    · split <;> rfl
    · rfl
  · rfl

/-- `Post.addComment` does not touch the comment collection. -/
theorem Post.addComment_commentsDb (s : St) (p c : String) :
    (Post.addComment s p c).2.commentsDb = s.commentsDb := by
  simp only [Post.addComment]
  split
  · split
    · split <;> rfl
    · rfl
  · rfl

/-- `Post.removeComment` does not touch the user collection. -/
theorem Post.removeComment_usersDb (s : St) (p : String) (c : Option String) :
    (Post.removeComment s p c).2.usersDb = s.usersDb := by
  simp only [Post.removeComment]
  split
  · split <;> rfl
  · rfl

/-- `User.removeComment` does not touch the post collection. -/
theorem User.removeComment_postsDb_frame (s : St) (u : String) (c : Option String) :
    (User.removeComment s u c).2.postsDb = s.postsDb := by
  simp only [User.removeComment]
  split <;> rfl

/-- `Post.removeComment` called with the `commentId` argument missing
(`undefined`, as `hardDeleteComment` does) leaves the post collection
unchanged: the `$pull` matches no string element. -/
theorem Post.removeComment_none_postsDb (s : St) (pid : String) :
    (Post.removeComment s pid none).2.postsDb = s.postsDb := by
  rw [Post.removeComment_postsDb]
  unfold mongoUpdate
  cases hg : Kv.get s.postsDb pid
  · rfl
  · rename_i v
    have hf : v.commentIds.filter (fun x => some x ≠ (none : Option String)) = v.commentIds :=
      List.filter_eq_self.mpr (by intro a ha; simp)
    simp [hf]

/-- `User.removeComment` called with the `commentId` argument missing
leaves the user collection unchanged. -/
theorem User.removeComment_none_usersDb (s : St) (uid : String) :
    (User.removeComment s uid none).2.usersDb = s.usersDb := by
  simp only [User.removeComment]
  have : (mongoUpdate s.usersDb uid (fun u =>
      { u with commentIds := u.commentIds.filter (fun x => some x ≠ none) })).1 = false := by
    unfold mongoUpdate
    cases hg : Kv.get s.usersDb uid
    · rfl
    · rename_i v
      have hf : v.commentIds.filter (fun x => some x ≠ (none : Option String)) = v.commentIds :=
        List.filter_eq_self.mpr (by intro a ha; simp)
      simp [hf]
  split <;> exact mongoUpdate_snd_of_not_modified _ _ _ this

/-- `findByPostId` does not touch the comment collection. -/
theorem Post.findByPostId_commentsDb (s : St) (pid : String) :
    (Post.findByPostId s pid).2.commentsDb = s.commentsDb := by
  unfold Post.findByPostId
  cases hc : Kv.get s.postsCache pid
  · cases hdb : Kv.get s.postsDb pid <;> rfl
  · rfl

/-- `findByPostId` does not touch the user collection. -/
theorem Post.findByPostId_usersDb (s : St) (pid : String) :
    (Post.findByPostId s pid).2.usersDb = s.usersDb := by
  unfold Post.findByPostId
  cases hc : Kv.get s.postsCache pid
  · cases hdb : Kv.get s.postsDb pid <;> rfl
  · rfl

/-- With a coherent cache, `findByPostId` returns the stored document. -/
theorem Post.findByPostId_result_of_coherent (s : St) (pid : String) (post : PostDoc)
    (hcoh : coherentAt s pid) (hdb : Kv.get s.postsDb pid = some post) :
    (Post.findByPostId s pid).1.result = some post := by
  unfold Post.findByPostId
  cases hc : Kv.get s.postsCache pid
  · simp [hdb]
  · rename_i e
    have h2 := hcoh e hc
    rw [hdb] at h2
    simpa using h2.symm

/-- The `$addToSet commentIds` write of `Post.addComment` leaves the
target document containing the comment id. -/
theorem Post.addComment_mem (s : St) (pid cid : String) (post : PostDoc)
    (hdb : Kv.get s.postsDb pid = some post) :
    ∃ post2, Kv.get (Post.addComment s pid cid).2.postsDb pid = some post2 ∧
      cid ∈ post2.commentIds := by
  rw [Post.addComment_postsDb]
  unfold mongoUpdate
  rw [hdb]
  by_cases hmem : cid ∈ post.commentIds
  · simp only [hmem, if_true, reduceIte, eq_self_iff_true]
    exact ⟨post, hdb, hmem⟩
  · have hne : ¬ ({ post with commentIds := post.commentIds ++ [cid] } : PostDoc) = post := by
      intro he
      have h2 : post.commentIds ++ [cid] = post.commentIds := congrArg PostDoc.commentIds he
      simpa using congrArg List.length h2
    simp only [hmem, if_false, reduceIte, hne]
    refine ⟨{ post with commentIds := post.commentIds ++ [cid] }, ?_, by simp⟩
    rw [Kv.get_update_self, hdb]
    simp [hmem]

/-- The `$addToSet commentIds` write of `User.addComment` leaves the
target document containing the comment id. -/
theorem User.addComment_mem_user (s : St) (uid cid : String) (user : UserDoc)
    (hdb : Kv.get s.usersDb uid = some user) :
    ∃ user2, Kv.get (User.addComment s uid cid).2.usersDb uid = some user2 ∧
      cid ∈ user2.commentIds := by
  have hdbeq : (User.addComment s uid cid).2.usersDb =
      (mongoUpdate s.usersDb uid (fun u =>
        if cid ∈ u.commentIds then u
        else { u with commentIds := u.commentIds ++ [cid] })).2 := by
    simp only [User.addComment]
    split
    · rfl
    · rename_i hmod
      rw [mongoUpdate_snd_of_not_modified _ _ _ (by simpa using hmod)]
  rw [hdbeq]
  unfold mongoUpdate
  rw [hdb]
  by_cases hmem : cid ∈ user.commentIds
  · simp only [hmem, if_true, reduceIte, eq_self_iff_true]
    exact ⟨user, hdb, hmem⟩
  · have hne : ¬ ({ user with commentIds := user.commentIds ++ [cid] } : UserDoc) = user := by
      intro he
      have h2 : user.commentIds ++ [cid] = user.commentIds := congrArg UserDoc.commentIds he
      simpa using congrArg List.length h2
    simp only [hmem, if_false, reduceIte, hne]
    refine ⟨{ user with commentIds := user.commentIds ++ [cid] }, ?_, by simp⟩
    rw [Kv.get_update_self, hdb]
    simp [hmem]

/-- **C1 counterexample.** After `Comment.create` followed by a completed
`Comment.softDeleteComment`, the only comment referencing the post and
the user is soft-deleted (not live), yet `post.commentIds` and
`user.commentIds` still contain its id: the arrays do not contain exactly
the ids of the live comments. -/
theorem c1_counterexample_soft_delete_leaves_ids :
    (Kv.get c1AfterSoftDelete.commentsDb "c1").map CommentDoc.isDeleted = some true ∧
    liveCommentIdsForPost c1AfterSoftDelete "p1" = [] ∧
    liveCommentIdsForUser c1AfterSoftDelete "u1" = [] ∧
    (Kv.get c1AfterSoftDelete.postsDb "p1").map PostDoc.commentIds = some ["c1"] ∧
    (Kv.get c1AfterSoftDelete.usersDb "u1").map UserDoc.commentIds = some ["c1"] := by
  refine ⟨by rfl, by rfl, by rfl, by rfl, by rfl⟩

/-- **C1 (amended).** What the comment operations actually maintain: a
fully successful `Comment.create` adds the new commentId to both
`post.commentIds` and `user.commentIds`; but the deletions do not restore
the exactness invariant: `softDeleteComment` leaves both collections'
arrays untouched (a soft-deleted id stays listed),
`hardDeleteComment` leaves both untouched because it passes no
`commentId` to `Post.removeComment` / `User.removeComment`, and
`deleteCommentsByPostId` clears `post.commentIds` to `[]` but leaves
every `user.commentIds` unchanged because its per-comment lookup runs
after the `deleteMany`.  (Hypotheses: comment documents are keyed by
their own `commentId` with unique keys, and the post cache is coherent at
`pid`.) -/
theorem c1_commentIds_maintenance (s : St) (d : Comment.CommentData)
    (fid : String) (now : Nat) (cid pid uid : String)
    (hkey : ∀ k c, Kv.get s.commentsDb k = some c → c.commentId = k)
    (hnodup : (s.commentsDb.map Prod.fst).Nodup)
    (hcoh : coherentAt s pid) :
    (∀ c st, Comment.create s d fid now true true = (some c, st) →
      Kv.get st.commentsDb c.commentId = some c ∧
      (∀ post, Kv.get s.postsDb d.postId = some post →
        ∃ post2, Kv.get st.postsDb d.postId = some post2 ∧
          c.commentId ∈ post2.commentIds) ∧
      (∀ user, Kv.get s.usersDb d.userId = some user →
        ∃ user2, Kv.get st.usersDb d.userId = some user2 ∧
          c.commentId ∈ user2.commentIds)) ∧
    ((Comment.softDeleteComment s cid now).2.postsDb = s.postsDb ∧
     (Comment.softDeleteComment s cid now).2.usersDb = s.usersDb) ∧
    ((Comment.hardDeleteComment s cid pid uid).2.postsDb = s.postsDb ∧
     (Comment.hardDeleteComment s cid pid uid).2.usersDb = s.usersDb) ∧
    ((Comment.deleteCommentsByPostId s pid).2.usersDb = s.usersDb ∧
     (∀ post, Kv.get s.postsDb pid = some post → post.commentIds ≠ [] →
       Kv.get (Comment.deleteCommentsByPostId s pid).2.postsDb pid =
         some { post with commentIds := [] })) := by
  have hfold : ∀ (ids : List String) (acc : St),
      (∀ cid2, cid2 ∈ ids → Kv.get acc.commentsDb cid2 = none) →
      (ids.foldl
        (fun st cid2 =>
          match Kv.get st.commentsDb cid2 with
          | some c => (User.removeComment st c.userId (some cid2)).2
          | none => st)
        acc) = acc := by
    intro ids
    induction ids with
    | nil => intro acc h; rfl
    | cons x xs ih =>
        intro acc h
        simp only [List.foldl_cons]
        rw [h x (by simp)]
        exact ih acc (fun c2 hc2 => h c2 (by simp [hc2]))
  have hnone : ∀ (ids : List String) (cid2 : String), cid2 ∈ ids →
      Kv.get ((Post.findByPostId s pid).2.commentsDb.filter
        (fun p => p.2.commentId ∉ ids)) cid2 = none := by
    intro ids cid2 hmem
    cases hg : Kv.get ((Post.findByPostId s pid).2.commentsDb.filter
        (fun p => p.2.commentId ∉ ids)) cid2 with
    | none => rfl
    | some c =>
        have hnodup0 : (((Post.findByPostId s pid).2.commentsDb).map Prod.fst).Nodup := by
          rw [Post.findByPostId_commentsDb]
          exact hnodup
        have hg2 := Kv.get_filter_nodup _ _ _ _ hnodup0 hg
        have hkc : c.commentId = cid2 := by
          rw [Post.findByPostId_commentsDb] at hg2
          exact hkey cid2 c hg2
        have hpair := Kv.mem_of_get _ _ _ hg
        have hpred := List.of_mem_filter hpair
        rw [hkc] at hpred
        simp at hpred
        exact absurd hmem hpred
  refine ⟨?_, ?_, ?_, ?_⟩
  · intro c st h
    simp only [Comment.create, reduceIte] at h
    split at h
    · exact absurd (congrArg Prod.fst h) (by simp)
    · rename_i db hins
      simp only [Prod.mk.injEq, Option.some.injEq] at h
      obtain ⟨hc, h2⟩ := h
      subst hc
      subst h2
      have hdb : db = s.commentsDb ++
          [((Comment.CommentDoc.ofData d fid now).commentId,
            Comment.CommentDoc.ofData d fid now)] := by
        unfold Kv.insert at hins
        cases hg : Kv.get s.commentsDb (Comment.CommentDoc.ofData d fid now).commentId
        · rw [hg] at hins
          exact (Option.some.inj hins).symm
        · rw [hg] at hins
          cases hins
      have hfresh : Kv.get s.commentsDb (Comment.CommentDoc.ofData d fid now).commentId = none := by
        unfold Kv.insert at hins
        cases hg : Kv.get s.commentsDb (Comment.CommentDoc.ofData d fid now).commentId
        · rfl
        · rw [hg] at hins
          cases hins
      refine ⟨?_, ?_, ?_⟩
      · rw [Post.addComment_commentsDb, User.addComment_commentsDb_frame]
        simp only [hdb]
        exact Kv.get_append_single_self _ _ _ hfresh
      · intro post hpost
        exact Post.addComment_mem _ _ _ post
          (by rw [User.addComment_postsDb_frame]; exact hpost)
      · intro user huser
        have h3 := User.addComment_mem_user
          { s with
            commentsDb := db,
            commentsCache := Kv.set s.commentsCache
              (Comment.CommentDoc.ofData d fid now).commentId
              (Comment.CommentDoc.ofData d fid now) }
          d.userId (Comment.CommentDoc.ofData d fid now).commentId user huser
        obtain ⟨user2, hu2, hmem2⟩ := h3
        exact ⟨user2, by rw [Post.addComment_usersDb]; exact hu2, hmem2⟩
  · simp only [Comment.softDeleteComment]
    split <;> exact ⟨rfl, rfl⟩
  · constructor
    · simp [Comment.hardDeleteComment, User.removeComment_postsDb_frame,
        Post.removeComment_none_postsDb]
    · simp [Comment.hardDeleteComment, User.removeComment_none_usersDb,
        Post.removeComment_usersDb]
  · constructor
    · simp only [Comment.deleteCommentsByPostId]
      split
      · exact Post.findByPostId_usersDb s pid
      · rw [hfold _ _ (by
          intro cid2 hc2
          exact hnone _ cid2 hc2)]
        exact Post.findByPostId_usersDb s pid
    · intro post hpost hne
      have hres := Post.findByPostId_result_of_coherent s pid post hcoh hpost
      have hempty : post.commentIds.isEmpty = false := by
        cases hl : post.commentIds with
        | nil => exact absurd hl hne
        | cons a l => rfl
      simp only [Comment.deleteCommentsByPostId, hres, hempty, Bool.false_eq_true,
        if_false, reduceIte]
      rw [hfold _ _ (by
        intro cid2 hc2
        exact hnone _ cid2 hc2)]
      have hpost0 : Kv.get (Post.findByPostId s pid).2.postsDb pid = some post := by
        rw [Post.findByPostId_postsDb]
        exact hpost
      rw [Kv.get_update_self, hpost0]
      rfl

/-- **C1 witness.** On the comment-lifecycle base state, creating a
comment puts its id into `post.commentIds` (hypotheses discharged at
`c1Base`). -/
theorem c1_commentIds_maintenance_witness :
    Kv.get c1AfterCreate.commentsDb "c1" =
      some (Comment.CommentDoc.ofData
        { postId := "p1", userId := "u1", content := "hey" } "c1" 20) :=
  ((c1_commentIds_maintenance c1Base
      { postId := "p1", userId := "u1", content := "hey" } "c1" 20 "c1" "p1" "u1"
      (by intro k c hkc; simp [c1Base, Kv.get] at hkc)
      (by simp [c1Base])
      (by intro e he; simp [c1Base, Kv.get] at he)).1
    (Comment.CommentDoc.ofData
      { postId := "p1", userId := "u1", content := "hey" } "c1" 20)
    c1AfterCreate rfl).1

/-! ## C10 — prefix-tree add/search -/

theorem char_toNat_ofNat {n : Nat} (h : n.isValidChar) : (Char.ofNat n).toNat = n := by
  rw [Char.ofNat, dif_pos h]
  rfl

theorem char_toLower_toLower (c : Char) : c.toLower.toLower = c.toLower := by
  by_cases h : c.toNat ≥ 65 ∧ c.toNat ≤ 90
  · have hv : (c.toNat + 32).isValidChar := Or.inl (by omega)
    have ht : (Char.ofNat (c.toNat + 32)).toNat = c.toNat + 32 := char_toNat_ofNat hv
    simp only [Char.toLower, if_pos h]
    rw [if_neg (by omega)]
  · simp only [Char.toLower, if_neg h]

theorem stripAccent_toLower (d : Char) (h : d.toLower = d) :
    (PrefixTree.stripAccent d).toLower = PrefixTree.stripAccent d := by
  unfold PrefixTree.stripAccent
  split
  all_goals first | decide | exact h

theorem normalizeChar_toLower (c : Char) :
    (PrefixTree.normalizeChar c).toLower = PrefixTree.normalizeChar c := by
  simp only [PrefixTree.normalizeChar]
  split
  · exact stripAccent_toLower _ (char_toLower_toLower c)
  · decide

theorem splitWs_chars : ∀ (l acc : List Char) (r : List Char),
    r ∈ PrefixTree.splitWs l acc → ∀ c ∈ r, c ∈ l ∨ c ∈ acc := by
  intro l
  induction l with
  | nil =>
      intro acc r hr c hc
      simp only [PrefixTree.splitWs] at hr
      split at hr
      · cases hr
      · right
        simp only [List.mem_singleton] at hr
        subst hr
        exact List.mem_reverse.mp hc
  | cons x xs ih =>
      intro acc r hr c hc
      simp only [PrefixTree.splitWs] at hr
      split at hr
      · split at hr
        · rcases ih [] r hr c hc with h | h
          · exact Or.inl (List.mem_cons_of_mem _ h)
          · cases h
        · rcases List.mem_cons.mp hr with h | h
          · subst h
            exact Or.inr (List.mem_reverse.mp hc)
          · rcases ih [] r h c hc with h2 | h2
            · exact Or.inl (List.mem_cons_of_mem _ h2)
            · cases h2
      · rcases ih (x :: acc) r hr c hc with h | h
        · exact Or.inl (List.mem_cons_of_mem _ h)
        · rcases List.mem_cons.mp h with h2 | h2
          · exact Or.inl (by simp [h2])
          · exact Or.inr h2

theorem tokenize_char_fixed (text w : String) (hw : w ∈ PrefixTree.tokenize text) :
    ∀ c ∈ w.data, c.toLower = c := by
  intro c hc
  simp only [PrefixTree.tokenize, List.mem_filter, List.mem_map] at hw
  obtain ⟨⟨r, hr, hwr⟩, _⟩ := hw
  subst hwr
  rcases splitWs_chars _ [] r hr c hc with h | h
  · rcases List.mem_map.mp h with ⟨c0, _, hc0⟩
    subst hc0
    exact normalizeChar_toLower c0
  · cases h

theorem strToLower_of_fixed (l : List Char) (h : ∀ c ∈ l, c.toLower = c) :
    strToLower ⟨l⟩ = ⟨l⟩ := by
  simp only [strToLower]
  exact congrArg String.mk ((List.map_congr_left h).trans (List.map_id l))

theorem strTake_length (s : String) (n : Nat) :
    (strTake s n).length = min n s.length := by
  show (s.data.take n).length = min n s.data.length
  simp

theorem strToLower_length (s : String) : (strToLower s).length = s.length := by
  show (s.data.map Char.toLower).length = s.data.length
  simp

theorem strToLower_strTake_tokenize (text w : String) (i : Nat)
    (hw : w ∈ PrefixTree.tokenize text) :
    strToLower (strTake w i) = strTake w i := by
  apply strToLower_of_fixed
  intro c hc
  exact tokenize_char_fixed text w hw c (List.mem_of_mem_take hc)

theorem foldl_preserve {β γ : Type} (P : β → Prop) (f : β → γ → β) :
    ∀ (l : List γ) (b : β), (∀ b' x, x ∈ l → P b' → P (f b' x)) → P b →
      P (l.foldl f b) := by
  intro l
  induction l with
  | nil => intro b _ hb; exact hb
  | cons x xs ih =>
      intro b hstep hb
      simp only [List.foldl_cons]
      exact ih (f b x) (fun b' y hy => hstep b' y (List.mem_cons_of_mem _ hy))
        (hstep b x (List.mem_cons_self _ _) hb)

theorem foldl_establish {β γ : Type} (P : β → Prop) (f : β → γ → β) :
    ∀ (l : List γ) (b : β) (x : γ), x ∈ l →
      (∀ b', P (f b' x)) → (∀ b' y, y ∈ l → P b' → P (f b' y)) →
      P (l.foldl f b) := by
  intro l
  induction l with
  | nil => intro b x hx _ _; cases hx
  | cons z zs ih =>
      intro b x hx hest hpres
      simp only [List.foldl_cons]
      rcases List.mem_cons.mp hx with h | h
      · subst h
        exact foldl_preserve P f zs (f b x)
          (fun b' y hy => hpres b' y (List.mem_cons_of_mem _ hy)) (hest b)
      · exact ih (f b z) x h hest
          (fun b' y hy => hpres b' y (List.mem_cons_of_mem _ hy))

theorem Kv.mem_set (l : List (String × α)) (k : String) (v : α) (pr : String × α)
    (h : pr ∈ Kv.set l k v) : pr ∈ l ∨ pr = (k, v) := by
  induction l with
  | nil =>
      simp only [Kv.set, List.mem_singleton] at h
      exact Or.inr h
  | cons q rest ih =>
      obtain ⟨k1, v1⟩ := q
      simp only [Kv.set] at h
      split at h
      · rcases List.mem_cons.mp h with h2 | h2
        · exact Or.inr h2
        · exact Or.inl (List.mem_cons_of_mem _ h2)
      · rcases List.mem_cons.mp h with h2 | h2
        · exact Or.inl (by simp [h2])
        · rcases ih h2 with h3 | h3
          · exact Or.inl (List.mem_cons_of_mem _ h3)
          · exact Or.inr h3

theorem Kv.keys_set (l : List (String × α)) (k : String) (v : α) (x : String)
    (h : x ∈ (Kv.set l k v).map Prod.fst) : x = k ∨ x ∈ l.map Prod.fst := by
  rcases List.mem_map.mp h with ⟨pr, hpr, hx⟩
  rcases Kv.mem_set l k v pr hpr with h2 | h2
  · exact Or.inr (hx ▸ List.mem_map_of_mem _ h2)
  · subst h2
    exact Or.inl hx.symm

namespace PrefixTree


theorem zadd_allText {μ : Type} [DecidableEq μ] (t : Tree μ) (key : String) (sc : Int) (m : Completion μ)
    (h : ∀ pr ∈ t, ∀ p ∈ pr.2, p.1 = m) :
    ∀ pr ∈ zadd t key sc m, ∀ p ∈ pr.2, p.1 = m := by
  intro pr hpr p hp
  simp only [zadd] at hpr
  rcases Kv.mem_set _ _ _ _ hpr with h2 | h2
  · exact h pr h2 p hp
  · subst h2
    simp only at hp
    have hbucket : ∀ q ∈ (Kv.get t key).getD [], q.1 = m := by
      intro q hq
      cases hg : Kv.get t key with
      | none => rw [hg] at hq; cases hq
      | some b =>
          rw [hg] at hq
          exact h (key, b) (Kv.mem_of_get _ _ _ hg) q hq
    split at hp
    · rcases List.mem_map.mp hp with ⟨q, hq, hpq⟩
      by_cases hqm : q.1 = m
      · rw [if_pos hqm] at hpq
        rw [← hpq]
        exact hqm
      · rw [if_neg hqm] at hpq
        rw [← hpq]
        exact hbucket q hq
    · rcases List.mem_append.mp hp with h3 | h3
      · exact hbucket p h3
      · simp only [List.mem_singleton] at h3
        rw [h3]

theorem zadd_get_self_ne {μ : Type} [DecidableEq μ] (t : Tree μ) (key : String) (sc : Int) (m : Completion μ) :
    ∃ b, Kv.get (zadd t key sc m) key = some b ∧ b ≠ [] := by
  simp only [zadd]
  refine ⟨_, Kv.get_set_self _ _ _, ?_⟩
  split
  · rename_i hany
    rcases List.any_eq_true.mp hany with ⟨q, hq, _⟩
    intro hcon
    rw [List.map_eq_nil_iff] at hcon
    rw [hcon] at hq
    cases hq
  · simp

theorem zadd_get_preserve {μ : Type} [DecidableEq μ] (t : Tree μ) (key k : String) (sc : Int) (m : Completion μ)
    (h : ∃ b, Kv.get t k = some b ∧ b ≠ []) :
    ∃ b, Kv.get (zadd t key sc m) k = some b ∧ b ≠ [] := by
  by_cases hk : key = k
  · subst hk
    exact zadd_get_self_ne t key sc m
  · obtain ⟨b, hb, hbne⟩ := h
    refine ⟨b, ?_, hbne⟩
    simp only [zadd]
    rw [Kv.get_set_ne _ _ _ _ hk]
    exact hb

theorem addWord_establishes {μ : Type} [DecidableEq μ] (t : Tree μ) (w : String) (m : Completion μ) (i : Nat)
    (h1 : 1 ≤ i) (h2 : i ≤ min w.length MAX_PREFIX_LENGTH) :
    ∃ b, Kv.get (addWord t w m) (strTake w i) = some b ∧ b ≠ [] := by
  simp only [addWord]
  apply foldl_establish (fun t' => ∃ b, Kv.get t' (strTake w i) = some b ∧ b ≠ [])
    _ _ _ (i - 1)
  · rw [List.mem_range]
    omega
  · intro b'
    have : i - 1 + 1 = i := by omega
    rw [this]
    exact zadd_get_self_ne b' (strTake w i) 1 m
  · intro b' y _ hy
    exact zadd_get_preserve b' _ _ _ _ hy

theorem addWord_preserve {μ : Type} [DecidableEq μ] (t : Tree μ) (w : String) (m : Completion μ) (k : String)
    (h : ∃ b, Kv.get t k = some b ∧ b ≠ []) :
    ∃ b, Kv.get (addWord t w m) k = some b ∧ b ≠ [] := by
  simp only [addWord]
  apply foldl_preserve (fun t' => ∃ b, Kv.get t' k = some b ∧ b ≠ []) _ _ _ _ h
  intro b' y _ hy
  exact zadd_get_preserve b' _ _ _ _ hy

theorem add_establishes {μ : Type} [DecidableEq μ] (t : Tree μ) (text : String) (md : μ) (now : Nat)
    (w : String) (i : Nat) (hw : w ∈ tokenize text)
    (h1 : 1 ≤ i) (h2 : i ≤ min w.length MAX_PREFIX_LENGTH) :
    ∃ b, Kv.get (add t text md now) (strTake w i) = some b ∧ b ≠ [] := by
  simp only [add]
  apply foldl_establish (fun t' => ∃ b, Kv.get t' (strTake w i) = some b ∧ b ≠ [])
    _ _ _ w hw
  · intro b'
    exact addWord_establishes b' w _ i h1 h2
  · intro b' y _ hy
    exact addWord_preserve b' _ _ _ hy

theorem addWord_allText {μ : Type} [DecidableEq μ] (t : Tree μ) (w : String) (m : Completion μ)
    (h : ∀ pr ∈ t, ∀ p ∈ pr.2, p.1 = m) :
    ∀ pr ∈ addWord t w m, ∀ p ∈ pr.2, p.1 = m := by
  simp only [addWord]
  exact foldl_preserve (fun t' => ∀ pr ∈ t', ∀ p ∈ pr.2, p.1 = m)
    (fun acc i => zadd acc (strTake w (i + 1)) 1 m)
    (List.range (min w.length MAX_PREFIX_LENGTH)) t
    (fun b' y _ hy => zadd_allText b' _ _ _ hy) h

theorem add_allText {μ : Type} [DecidableEq μ] (text : String) (md : μ) (now : Nat) :
    ∀ pr ∈ add ([] : Tree μ) text md now, ∀ p ∈ pr.2,
      p.1 = ⟨text, md, now⟩ := by
  simp only [add]
  exact foldl_preserve (fun t' => ∀ pr ∈ t', ∀ p ∈ pr.2, p.1 = ⟨text, md, now⟩)
    (fun acc w => addWord acc w ⟨text, md, now⟩) (tokenize text) []
    (fun b' y _ hy => addWord_allText b' _ _ hy)
    (fun pr hpr => absurd hpr (List.not_mem_nil pr))

end PrefixTree

namespace PrefixTree


theorem mem_insertDesc {μ : Type} [DecidableEq μ] (p q : Completion μ × Int) :
    ∀ l : List (Completion μ × Int), q ∈ insertDesc p l → q = p ∨ q ∈ l := by
  intro l
  induction l with
  | nil =>
      intro h
      simp only [insertDesc, List.mem_singleton] at h
      exact Or.inl h
  | cons r rest ih =>
      intro h
      simp only [insertDesc] at h
      split at h
      · rcases List.mem_cons.mp h with h2 | h2
        · exact Or.inl h2
        · exact Or.inr h2
      · rcases List.mem_cons.mp h with h2 | h2
        · exact Or.inr (by simp [h2])
        · rcases ih h2 with h3 | h3
          · exact Or.inl h3
          · exact Or.inr (List.mem_cons_of_mem _ h3)

theorem mem_sortDesc_aux {μ : Type} [DecidableEq μ] (q : Completion μ × Int) :
    ∀ (l acc : List (Completion μ × Int)),
      q ∈ l.foldl (fun acc p => insertDesc p acc) acc → q ∈ acc ∨ q ∈ l := by
  intro l
  induction l with
  | nil => intro acc h; exact Or.inl h
  | cons p rest ih =>
      intro acc h
      simp only [List.foldl_cons] at h
      rcases ih (insertDesc p acc) h with h2 | h2
      · rcases mem_insertDesc p q acc h2 with h3 | h3
        · exact Or.inr (by simp [h3])
        · exact Or.inl h3
      · exact Or.inr (List.mem_cons_of_mem _ h2)

theorem mem_sortDesc {μ : Type} [DecidableEq μ] (q : Completion μ × Int) (l : List (Completion μ × Int))
    (h : q ∈ sortDesc l) : q ∈ l := by
  rcases mem_sortDesc_aux q l [] h with h2 | h2
  · cases h2
  · exact h2

theorem insertDesc_length {μ : Type} [DecidableEq μ] (p : Completion μ × Int) :
    ∀ l : List (Completion μ × Int), (insertDesc p l).length = l.length + 1 := by
  intro l
  induction l with
  | nil => rfl
  | cons r rest ih =>
      simp only [insertDesc]
      split
      · simp
      · simp [ih]

theorem sortDesc_length_aux {μ : Type} [DecidableEq μ] :
    ∀ (l acc : List (Completion μ × Int)),
      (l.foldl (fun acc p => insertDesc p acc) acc).length =
        l.length + acc.length := by
  intro l
  induction l with
  | nil => intro acc; simp
  | cons p rest ih =>
      intro acc
      simp only [List.foldl_cons]
      rw [ih (insertDesc p acc), insertDesc_length]
      simp only [List.length_cons]
      omega

theorem sortDesc_length {μ : Type} [DecidableEq μ] (l : List (Completion μ × Int)) :
    (sortDesc l).length = l.length := by
  simp only [sortDesc]
  rw [sortDesc_length_aux]
  simp

theorem mem_dedupTake {μ : Type} [DecidableEq μ] (limit : Nat) (c : Completion μ) :
    ∀ (l : List (Completion μ)) (seen : List String) (count : Nat),
      c ∈ dedupTake limit l seen count → c ∈ l := by
  intro l
  induction l with
  | nil => intro seen count h; cases h
  | cons x rest ih =>
      intro seen count h
      simp only [dedupTake] at h
      split at h
      · exact List.mem_cons_of_mem _ (ih seen count h)
      · split at h
        · simp only [List.mem_singleton] at h
          simp [h]
        · rcases List.mem_cons.mp h with h2 | h2
          · simp [h2]
          · exact List.mem_cons_of_mem _ (ih _ _ h2)

theorem dedupTake_cons_ne_nil {μ : Type} [DecidableEq μ] (limit : Nat) (x : Completion μ)
    (rest : List (Completion μ)) (count : Nat) :
    dedupTake limit (x :: rest) [] count ≠ [] := by
  simp only [dedupTake, List.contains_nil, Bool.false_eq_true, if_false, reduceIte]
  split
  · simp
  · simp

theorem search_mem_of_get {μ : Type} [DecidableEq μ] (t : Tree μ) (pfx : String) (limit : Nat)
    (b : List (Completion μ × Int))
    (hlen : ¬ pfx.length < 1) (hlim : 1 ≤ limit)
    (hget : Kv.get t (strToLower pfx) = some b) (hne : b ≠ []) :
    ∃ c, c ∈ search t pfx limit ∧ ∃ sc, (c, sc) ∈ b := by
  simp only [search, if_neg hlen, hget, Option.getD_some]
  have hlen2 : (sortDesc b).take (limit * 3) ≠ [] := by
    intro hcon
    have := congrArg List.length hcon
    simp only [List.length_take, sortDesc_length, List.length_nil] at this
    have h0 : min (limit * 3) b.length = 0 := by
      simpa [List.length_take, sortDesc_length] using this
    rcases Nat.min_eq_zero_iff.mp h0 with h | h
    · omega
    · exact hne (List.length_eq_zero.mp h)
  obtain ⟨y, ys, hys⟩ := List.exists_cons_of_ne_nil hlen2
  rw [hys]
  simp only [List.map_cons]
  obtain ⟨c, hc⟩ := List.exists_mem_of_ne_nil _
    (dedupTake_cons_ne_nil limit y.1 (ys.map Prod.fst) 0)
  refine ⟨c, hc, ?_⟩
  have hcm : c ∈ (y :: ys).map Prod.fst := mem_dedupTake _ _ _ _ _ hc
  rcases List.mem_map.mp hcm with ⟨p, hp, hpc⟩
  refine ⟨p.2, ?_⟩
  have hp2 : p ∈ sortDesc b := List.mem_of_mem_take (hys ▸ hp)
  have := mem_sortDesc p b hp2
  rw [← hpc]
  simpa using this

theorem search_eq_nil_of_get_none {μ : Type} [DecidableEq μ] (t : Tree μ) (pfx : String) (limit : Nat)
    (hget : Kv.get t (strToLower pfx) = none) :
    search t pfx limit = [] := by
  simp only [search, hget, Option.getD_none]
  split
  · rfl
  · rw [show sortDesc ([] : List (Completion μ × Int)) = [] from rfl]
    simp [dedupTake]

end PrefixTree

namespace PrefixTree


theorem zadd_keys {μ : Type} [DecidableEq μ] (t : Tree μ) (key : String) (sc : Int) (m : Completion μ)
    (x : String) (h : x ∈ (zadd t key sc m).map Prod.fst) :
    x = key ∨ x ∈ t.map Prod.fst := by
  simp only [zadd] at h
  exact Kv.keys_set _ _ _ _ h

theorem addWord_keys {μ : Type} [DecidableEq μ] (t : Tree μ) (w : String) (m : Completion μ) :
    ∀ x ∈ (addWord t w m).map Prod.fst,
      x ∈ t.map Prod.fst ∨ x.length ≤ MAX_PREFIX_LENGTH := by
  simp only [addWord]
  apply foldl_preserve
    (fun t' => ∀ x ∈ t'.map Prod.fst,
      x ∈ t.map Prod.fst ∨ x.length ≤ MAX_PREFIX_LENGTH)
    (fun acc i => zadd acc (strTake w (i + 1)) 1 m)
    (List.range (min w.length MAX_PREFIX_LENGTH)) t
  · intro b' y hy hb x hx
    rcases zadd_keys b' _ _ _ x hx with h2 | h2
    · right
      rw [h2, strTake_length]
      rw [List.mem_range] at hy
      simp only [MAX_PREFIX_LENGTH] at hy ⊢
      omega
    · exact hb x h2
  · intro x hx
    exact Or.inl hx

theorem add_keys {μ : Type} [DecidableEq μ] (t : Tree μ) (text : String) (md : μ) (now : Nat) :
    ∀ x ∈ (add t text md now).map Prod.fst,
      x ∈ t.map Prod.fst ∨ x.length ≤ MAX_PREFIX_LENGTH := by
  simp only [add]
  apply foldl_preserve
    (fun t' => ∀ x ∈ t'.map Prod.fst,
      x ∈ t.map Prod.fst ∨ x.length ≤ MAX_PREFIX_LENGTH)
    (fun acc w => addWord acc w ⟨text, md, now⟩) (tokenize text) t
  · intro b' y _ hb x hx
    rcases addWord_keys b' _ _ x hx with h2 | h2
    · exact hb x h2
    · exact Or.inr h2
  · intro x hx
    exact Or.inl hx

end PrefixTree

/-- **C10 (amended).** Adding `text` to an EMPTY `PrefixTree` indexes it
under every prefix of length 1 through `min(|w|, 10)` of every tokenized
word `w`, and a `search` on any such prefix (with a positive limit)
returns a completion whose `text` equals `text`; moreover `add` keeps
every stored key at most `MAX_PREFIX_LENGTH = 10` characters long, so on
any tree reachable by `add`s a search for an 11-character-or-longer
prefix returns no entry at all.  On non-empty trees the per-prefix
success clause fails in general (see the counterexample): a bucket
crowded with `limit` higher-scored distinct texts hides the new entry. -/
theorem c10_prefix_search {μ : Type} [DecidableEq μ] (text : String) (metadata : μ)
    (now : Nat) (t : PrefixTree.Tree μ) (w pfx : String) (i limit : Nat)
    (hshort : ∀ k ∈ t.map Prod.fst, k.length ≤ PrefixTree.MAX_PREFIX_LENGTH) :
    (w ∈ PrefixTree.tokenize text → 1 ≤ i →
        i ≤ min w.length PrefixTree.MAX_PREFIX_LENGTH → 1 ≤ limit →
        ∃ c, c ∈ PrefixTree.search
            (PrefixTree.add ([] : PrefixTree.Tree μ) text metadata now)
            (strTake w i) limit ∧
          c.text = text) ∧
    (∀ k ∈ (PrefixTree.add t text metadata now).map Prod.fst,
        k.length ≤ PrefixTree.MAX_PREFIX_LENGTH) ∧
    (PrefixTree.MAX_PREFIX_LENGTH < pfx.length →
        PrefixTree.search (PrefixTree.add t text metadata now) pfx limit = []) := by
  refine ⟨?_, ?_, ?_⟩
  · intro hw h1 h2 hlim
    obtain ⟨b, hb, hbne⟩ :=
      PrefixTree.add_establishes ([] : PrefixTree.Tree μ) text metadata now w i hw h1 h2
    have hkey : strToLower (strTake w i) = strTake w i :=
      strToLower_strTake_tokenize text w i hw
    have hlen : ¬ (strTake w i).length < 1 := by
      rw [strTake_length]
      have : i ≤ w.length := le_trans h2 (min_le_left _ _)
      omega
    obtain ⟨c, hc, sc, hsc⟩ :=
      PrefixTree.search_mem_of_get _ (strTake w i) limit b hlen hlim
        (by rw [hkey]; exact hb) hbne
    refine ⟨c, hc, ?_⟩
    have hct : c = ⟨text, metadata, now⟩ :=
      PrefixTree.add_allText text metadata now
        (strTake w i, b) (Kv.mem_of_get _ _ _ hb) (c, sc) hsc
    rw [hct]
  · intro k hk
    rcases PrefixTree.add_keys t text metadata now k hk with h | h
    · exact hshort k h
    · exact h
  · intro hp
    apply PrefixTree.search_eq_nil_of_get_none
    cases hg : Kv.get (PrefixTree.add t text metadata now) (strToLower pfx) with
    | none => rfl
    | some b =>
        exfalso
        have hmem : strToLower pfx ∈ (PrefixTree.add t text metadata now).map Prod.fst :=
          List.mem_map_of_mem _ (Kv.mem_of_get _ _ _ hg)
        have hle : (strToLower pfx).length ≤ PrefixTree.MAX_PREFIX_LENGTH := by
          rcases PrefixTree.add_keys t text metadata now _ hmem with h | h
          · exact hshort _ h
          · exact h
        rw [strToLower_length] at hle
        omega

/-- **C10 witness.** Instantiated at `add([], "Hello World")`: searching
the 3-character prefix `hel` of the tokenized word `hello` finds the
text, and searching the 12-character prefix `demonstrates` finds
nothing. -/
theorem c10_prefix_search_witness :
    (∃ c, c ∈ PrefixTree.search
        (PrefixTree.add ([] : PrefixTree.Tree Unit) "Hello World" () 5)
        (strTake "hello" 3) 10 ∧ c.text = "Hello World") ∧
    PrefixTree.search (PrefixTree.add ([] : PrefixTree.Tree Unit)
        "Hello World" () 5) "demonstrates" 10 = [] := by
  have h := c10_prefix_search "Hello World" () 5 ([] : PrefixTree.Tree Unit)
    "hello" "demonstrates" 3 10 (by simp)
  exact ⟨h.1 (by decide) (by decide) (by decide) (by decide), h.2.2 (by decide)⟩

set_option maxRecDepth 4000 in
/-- **C10 counterexample.** The claim fails on non-empty trees: after
`add("applezz")` on a tree whose `app` bucket already holds ten distinct
boosted texts, `search("app")` (default limit 10) — a prefix of length 3
of the tokenized word `applezz`, within the claimed 1..min(|w|,10) range
— dedups the ten higher-scored texts first and returns no result with
text `applezz`, even though it returns a full page of results. -/
theorem c10_counterexample_crowded_prefix :
    "applezz" ∈ PrefixTree.tokenize "applezz" ∧
    strTake "applezz" 3 = "app" ∧
    1 ≤ 3 ∧ 3 ≤ min (String.length "applezz") PrefixTree.MAX_PREFIX_LENGTH ∧
    (∀ c ∈ PrefixTree.search c10Tree "app" 10, c.text ≠ "applezz") ∧
    PrefixTree.search c10Tree "app" 10 ≠ [] := by
  refine ⟨by decide, by decide, by decide, by decide, by decide, by decide⟩

end KHive
